import Mathlib

set_option maxHeartbeats 1000000

/-! Shallow embedding of the AiBlockGameSolver repository: the board
primitives of `main_game.py` and the move-suggestion engine of
`ai_solver.py`.  Grids are row-major lists of boolean cells
(`true` = BLOCK_CELL, `false` = EMPTY_CELL); Python's `-float('inf')`
sentinel score is modelled by `⊥ : WithBot ℤ`. -/

abbrev Cell := Bool

abbrev Grid := List (List Cell)

def GRID_WIDTH : ℕ := 8

def GRID_HEIGHT : ℕ := 8

/-- Reading `grid[r][c]`; all in-range uses are guarded by bounds checks in
the source, so the out-of-range default is never observable there. -/
def getCellN (g : Grid) (r c : ℕ) : Cell :=
  (g.getD r []).getD c false

/-- Writing `grid[r][c] = v`. -/
def setCellN (g : Grid) (r c : ℕ) (v : Cell) : Grid :=
  g.set r ((g.getD r []).set c v)

/-- An actual game grid: 8 rows of 8 cells. -/
def GridWF (g : Grid) : Prop :=
  g.length = GRID_HEIGHT ∧ ∀ row ∈ g, row.length = GRID_WIDTH

instance (g : Grid) : Decidable (GridWF g) := by
  unfold GridWF; infer_instance

/-- Python `range(n)` for an integer bound (empty when `n ≤ 0`). -/
def pyRange (n : ℤ) : List ℤ :=
  (List.range n.toNat).map (fun (k : ℕ) => (k : ℤ))

/-- `main_game.is_valid_placement`. -/
def is_valid_placement (g : Grid) (piece_shape : List (ℤ × ℤ)) (r_start c_start : ℤ) : Bool :=
  piece_shape.all fun rc =>
    let r := r_start + rc.1
    let c := c_start + rc.2
    decide (0 ≤ r) && decide (r < (GRID_HEIGHT : ℤ)) && decide (0 ≤ c) &&
      decide (c < (GRID_WIDTH : ℤ)) && (getCellN g r.toNat c.toNat == false)

/-- `main_game.place_piece` (the grid after the mutation; the source's
return value `len(piece_shape)` is unused by the solver). -/
def place_piece (g : Grid) (piece_shape : List (ℤ × ℤ)) (r_start c_start : ℤ) : Grid :=
  piece_shape.foldl (fun gg rc => setCellN gg (r_start + rc.1).toNat (c_start + rc.2).toNat true) g

/-- The `rows_to_clear` list of `main_game.find_and_clear_lines`, computed
on the incoming grid before any cell is erased. -/
def rows_to_clear (g : Grid) : List ℕ :=
  (List.range GRID_HEIGHT).filter fun r => (g.getD r []).all (fun cell => cell == true)

/-- The `cols_to_clear` list of `main_game.find_and_clear_lines`. -/
def cols_to_clear (g : Grid) : List ℕ :=
  (List.range GRID_WIDTH).filter fun c =>
    (List.range GRID_HEIGHT).all (fun r => getCellN g r c == true)

/-- `main_game.find_and_clear_lines`: the returned count together with the
grid after the mutation.  Both clear lists are computed on the incoming
grid before any cell is erased, exactly as in the source. -/
def find_and_clear_lines (g : Grid) : ℕ × Grid :=
  let g1 := (rows_to_clear g).foldl (fun gg r => gg.set r (List.replicate GRID_WIDTH false)) g
  let g2 := (cols_to_clear g).foldl (fun gg c =>
    (List.range GRID_HEIGHT).foldl (fun gg2 r => setCellN gg2 r c false) gg) g1
  ((rows_to_clear g).length + (cols_to_clear g).length, g2)

def WEIGHT_LINES_CLEARED : ℤ := 2000

def WEIGHT_FILLED_CELLS : ℤ := -10

def WEIGHT_CLUSTERING : ℤ := 20

def BONUS_ALL_CLEAR : ℤ := 10000

/-- A piece slot: `{'shape': ..., 'placed': ...}`. -/
structure Piece where
  shape : List (ℤ × ℤ)
  placed : Bool
deriving DecidableEq

instance : Inhabited Piece := ⟨⟨[], false⟩⟩

/-- `ai_solver.count_filled_cells` (outer loop over `col`, inner over `row`,
as written in the source). -/
def count_filled_cells (g : Grid) : ℤ :=
  (List.range GRID_HEIGHT).foldl (fun acc col =>
    (List.range GRID_WIDTH).foldl (fun acc2 row =>
      if getCellN g row col = true then acc2 + 1 else acc2) acc) 0

def surrounding_positions : List (ℤ × ℤ) := [(-1, 0), (1, 0), (0, -1), (0, 1)]

/-- `ai_solver.check_surrounding_cells`. -/
def check_surrounding_cells (g : Grid) (row col : ℕ) : ℤ :=
  surrounding_positions.foldl (fun acc d =>
    let check_row := (row : ℤ) + d.1
    let check_col := (col : ℤ) + d.2
    if 0 ≤ check_row ∧ check_row < (GRID_HEIGHT : ℤ) ∧ 0 ≤ check_col ∧
        check_col < (GRID_WIDTH : ℤ) ∧ getCellN g check_row.toNat check_col.toNat = true
    then acc + 1 else acc) 0

/-- `ai_solver.check_block_clusters`. -/
def check_block_clusters (g : Grid) : ℤ :=
  (List.range GRID_HEIGHT).foldl (fun acc row =>
    (List.range GRID_WIDTH).foldl (fun acc2 col =>
      if getCellN g row col = true then acc2 + check_surrounding_cells g row col else acc2) acc) 0

/-- `ai_solver.evaluate_board`. -/
def evaluate_board (g : Grid) (lines_cleared : ℤ) : ℤ :=
  let filled_cells := count_filled_cells g
  if filled_cells = 0 then BONUS_ALL_CLEAR
  else WEIGHT_LINES_CLEARED * lines_cleared ^ 2 + WEIGHT_FILLED_CELLS * filled_cells +
    WEIGHT_CLUSTERING * check_block_clusters g

/-- `ai_solver.find_all_possible_placements`. -/
def find_all_possible_placements (g : Grid) (piece_shape : List (ℤ × ℤ)) : List (ℤ × ℤ) :=
  match piece_shape with
  | [] => []
  | p0 :: rest =>
    let piece_height := (rest.foldl (fun m q => max m q.1) p0.1) + 1
    let piece_width := (rest.foldl (fun m q => max m q.2) p0.2) + 1
    (pyRange ((GRID_HEIGHT : ℤ) - piece_height + 1)).foldl (fun acc row =>
      (pyRange ((GRID_WIDTH : ℤ) - piece_width + 1)).foldl (fun acc2 col =>
        if is_valid_placement g piece_shape row col then acc2 ++ [(row, col)] else acc2) acc) []

def concatMapL {α β : Type _} (f : α → List β) : List α → List β
  | [] => []
  | x :: xs => f x ++ concatMapL f xs

/-- All ways to pull one element of a list to the front, in input order. -/
def selections {α : Type _} : List α → List (α × List α)
  | [] => []
  | x :: xs => (x, xs) :: (selections xs).map (fun p => (p.1, x :: p.2))

def permsLexAux {α : Type _} : ℕ → List α → List (List α)
  | 0, _ => [[]]
  | n + 1, l => concatMapL (fun p => (permsLexAux n p.2).map (fun t => p.1 :: t)) (selections l)

/-- `itertools.permutations`: all permutations of a list, in lexicographic
order with respect to the input positions. -/
def permsLex {α : Type _} (l : List α) : List (List α) :=
  permsLexAux l.length l

/-- A move `(piece_index, r, c)`. -/
abbrev Move := ℕ × ℤ × ℤ

/-- `ai_solver.find_best_outcome_recursive`, recursing on the suffix
`piece_order[depth:]` of the permutation instead of carrying `depth`. -/
def find_best_outcome_recursive (current_grid : Grid) (all_pieces : List Piece) :
    List ℕ → WithBot ℤ × List Move
  | [] => (((evaluate_board current_grid 0 : ℤ) : WithBot ℤ), [])
  | piece_index :: rest =>
    let piece_shape := (all_pieces.getD piece_index default).shape
    let possible_placements := find_all_possible_placements current_grid piece_shape
    possible_placements.foldl (fun best rc =>
      let temp_grid := place_piece current_grid piece_shape rc.1 rc.2
      let cleared := find_and_clear_lines temp_grid
      let move_score : ℤ := ((cleared.1 : ℤ) ^ 2) * WEIGHT_LINES_CLEARED
      let future := find_best_outcome_recursive cleared.2 all_pieces rest
      let total_score : WithBot ℤ := (move_score : WithBot ℤ) + future.1
      if best.1 < total_score then (total_score, (piece_index, rc.1, rc.2) :: future.2) else best)
      ((⊥ : WithBot ℤ), [])

/-- The total score of one branch of the recursive search: the immediate
quadratic line-clear reward of placing piece `i` at `rc`, plus the best
continuation score for the remaining `rest` of the order. -/
def recBranchScore (g : Grid) (pieces : List Piece) (i : ℕ) (rest : List ℕ)
    (rc : ℤ × ℤ) : WithBot ℤ :=
  let temp_grid := place_piece g (pieces.getD i default).shape rc.1 rc.2
  let cleared := find_and_clear_lines temp_grid
  let move_score : ℤ := ((cleared.1 : ℤ) ^ 2) * WEIGHT_LINES_CLEARED
  (move_score : WithBot ℤ) + (find_best_outcome_recursive cleared.2 pieces rest).1

/-- The move list produced by that branch. -/
def recBranchSeq (g : Grid) (pieces : List Piece) (i : ℕ) (rest : List ℕ)
    (rc : ℤ × ℤ) : List Move :=
  let temp_grid := place_piece g (pieces.getD i default).shape rc.1 rc.2
  let cleared := find_and_clear_lines temp_grid
  (i, rc.1, rc.2) :: (find_best_outcome_recursive cleared.2 pieces rest).2

/-- The indices of not-yet-placed slots, in slot order. -/
def unplaced_indices (pieces : List Piece) : List ℕ :=
  (List.range pieces.length).filter (fun i => !(pieces.getD i default).placed)

/-- `ai_solver.find_best_move_sequence`; `none` models Python's `None`. -/
def find_best_move_sequence (grid : Grid) (pieces : List Piece) : Option (List Move) :=
  let available_piece_indices := unplaced_indices pieces
  let best := (permsLex available_piece_indices).foldl (fun best ord =>
    let current := find_best_outcome_recursive grid pieces ord
    if best.1 < current.1 then (current.1, some current.2) else best)
    ((⊥ : WithBot ℤ), (none : Option (List Move)))
  best.2

def emptyGrid : Grid :=
  List.replicate GRID_HEIGHT (List.replicate GRID_WIDTH false)

/-! Spec-side definitions, written from the specification's words, used to
compare the embedded code against the stated properties. -/

/-- Indicator (as an integer) that position `p` is an in-bounds filled cell. -/
def cellB (g : Grid) (p : ℤ × ℤ) : ℤ :=
  if 0 ≤ p.1 ∧ p.1 < (GRID_HEIGHT : ℤ) ∧ 0 ≤ p.2 ∧ p.2 < (GRID_WIDTH : ℤ) ∧
      getCellN g p.1.toNat p.2.toNat = true then 1 else 0

/-- The board positions (rows and columns `0..7`), as a finite set of
integer coordinates. -/
def zbox : Finset (ℤ × ℤ) :=
  Finset.Icc (0 : ℤ) 7 ×ˢ Finset.Icc (0 : ℤ) 7

/-- Spec: the number of filled cells of the grid. -/
def filledCountSpec (g : Grid) : ℤ :=
  ∑ p ∈ zbox, cellB g p

/-- The number of orthogonally-adjacent (up/down/left/right) neighbors of
`p` that are filled. -/
def neighborSum (g : Grid) (p : ℤ × ℤ) : ℤ :=
  (surrounding_positions.map (fun d => cellB g (p.1 + d.1, p.2 + d.2))).sum

/-- Spec: `clusterScore` = sum, over every filled cell, of the count of its
orthogonally-adjacent neighbors that are also filled (each adjacent filled
pair contributing twice, once from each side). -/
def clusterScoreSpec (g : Grid) : ℤ :=
  ∑ p ∈ zbox, cellB g p * neighborSum g p

/-- Spec: a move list is valid iff every move is a legal placement on the
grid obtained by applying all prior moves in order, clearing completed
lines after each. -/
def seqLegal (g : Grid) (pieces : List Piece) : List Move → Bool
  | [] => true
  | m :: rest =>
    let shape := (pieces.getD m.1 default).shape
    is_valid_placement g shape m.2.1 m.2.2 &&
      seqLegal (find_and_clear_lines (place_piece g shape m.2.1 m.2.2)).2 pieces rest

/-- Transposition of two slot indices. -/
def swap_index (i j : ℕ) (x : ℕ) : ℕ :=
  if x = i then j else if x = j then i else x

/-- The horizontal 1×2 shape `{(0,0), (0,1)}`. -/
def shape1x2 : List (ℤ × ℤ) := [(0, 0), (0, 1)]

/-- The 56 anchors of a 1×2 horizontal piece on the empty board, in
row-major order: all columns of row 0 first, then row 1, and so on. -/
def rowMajorAnchors1x2 : List (ℤ × ℤ) :=
  concatMapL (fun r => (List.range (GRID_WIDTH - 1)).map (fun c => ((r : ℤ), (c : ℤ))))
    (List.range GRID_HEIGHT)

/-! State-passing variant of the search, mirroring the source's object
flow: every function that can mutate a Python argument object returns that
object's final state alongside its value, and `copy.deepcopy` severs the
link between `temp_grid` and `current_grid`.  It makes the frame effect of
the search on the caller's `grid` and `pieces` checkable. -/

/-- `find_best_outcome_recursive`, additionally returning the final states
of the caller's `current_grid` and `all_pieces` objects. -/
def find_best_outcome_recursive_st (current_grid : Grid) (all_pieces : List Piece) :
    List ℕ → (WithBot ℤ × List Move) × Grid × List Piece
  | [] => ((((evaluate_board current_grid 0 : ℤ) : WithBot ℤ), []), current_grid, all_pieces)
  | piece_index :: rest =>
    let piece_shape := (all_pieces.getD piece_index default).shape
    let possible_placements := find_all_possible_placements current_grid piece_shape
    possible_placements.foldl (fun st rc =>
      let temp_grid := st.2.1
      let temp_grid1 := place_piece temp_grid piece_shape rc.1 rc.2
      let cleared := find_and_clear_lines temp_grid1
      let move_score : ℤ := ((cleared.1 : ℤ) ^ 2) * WEIGHT_LINES_CLEARED
      let rec_out := find_best_outcome_recursive_st cleared.2 st.2.2 rest
      let total_score : WithBot ℤ := (move_score : WithBot ℤ) + rec_out.1.1
      let best := if st.1.1 < total_score then (total_score, (piece_index, rc.1, rc.2) :: rec_out.1.2)
        else st.1
      (best, st.2.1, rec_out.2.2))
      (((⊥ : WithBot ℤ), []), current_grid, all_pieces)

/-- `find_best_move_sequence`, additionally returning the final states of
the caller's `grid` and `pieces` objects. -/
def find_best_move_sequence_st (grid : Grid) (pieces : List Piece) :
    Option (List Move) × Grid × List Piece :=
  let available_piece_indices := unplaced_indices pieces
  let out := (permsLex available_piece_indices).foldl (fun st ord =>
    let res := find_best_outcome_recursive_st st.2.1 st.2.2 ord
    let best := if st.1.1 < res.1.1 then (res.1.1, some res.1.2) else st.1
    (best, res.2))
    (((⊥ : WithBot ℤ), (none : Option (List Move))), grid, pieces)
  (out.1.2, out.2)

/-- One loop step of the state-passing recursion: `temp_grid` is a fresh
copy of the current grid object's state, and the callee's final state of
the shared `all_pieces` object is threaded onward. -/
def recStStep (pieces : List Piece) (i : ℕ) (rest : List ℕ)
    (st : (WithBot ℤ × List Move) × Grid × List Piece) (rc : ℤ × ℤ) :
    (WithBot ℤ × List Move) × Grid × List Piece :=
  let temp_grid := st.2.1
  let temp_grid1 := place_piece temp_grid (pieces.getD i default).shape rc.1 rc.2
  let cleared := find_and_clear_lines temp_grid1
  let move_score : ℤ := ((cleared.1 : ℤ) ^ 2) * WEIGHT_LINES_CLEARED
  let rec_out := find_best_outcome_recursive_st cleared.2 st.2.2 rest
  let total_score : WithBot ℤ := (move_score : WithBot ℤ) + rec_out.1.1
  let best := if st.1.1 < total_score then (total_score, (i, rc.1, rc.2) :: rec_out.1.2)
    else st.1
  (best, st.2.1, rec_out.2.2)

/-- One step of the state-passing top-level loop over permutations. -/
def seqStStep (st : (WithBot ℤ × Option (List Move)) × Grid × List Piece) (ord : List ℕ) :
    (WithBot ℤ × Option (List Move)) × Grid × List Piece :=
  let res := find_best_outcome_recursive_st st.2.1 st.2.2 ord
  let best := if st.1.1 < res.1.1 then (res.1.1, some res.1.2) else st.1
  (best, res.2)

/-- One step of the pure top-level loop over permutations. -/
def seqPureStep (g : Grid) (pieces : List Piece) (b : WithBot ℤ × Option (List Move))
    (ord : List ℕ) : WithBot ℤ × Option (List Move) :=
  let current := find_best_outcome_recursive g pieces ord
  if b.1 < current.1 then (current.1, some current.2) else b

/-! Concrete inputs used by the witness theorems. -/

/-- The full board with the listed holes left empty. -/
def gridFullBut (holes : List (ℕ × ℕ)) : Grid :=
  (List.range GRID_HEIGHT).map (fun r =>
    (List.range GRID_WIDTH).map (fun c => !(holes.contains (r, c))))

/-- Row 0 filled except its last cell; all other rows empty. -/
def c2grid : Grid :=
  (List.replicate 7 true ++ [false]) :: List.replicate 7 (List.replicate 8 false)

/-- Full board with a 3×3 block of holes: no single-cell placement or pair
of placements can complete a line, so no clears occur during the search. -/
def c1grid : Grid :=
  gridFullBut [(0, 0), (0, 1), (0, 2), (1, 0), (1, 1), (1, 2), (2, 0), (2, 1), (2, 2)]

/-- Two identical unplaced single-cell pieces. -/
def c1pieces : List Piece :=
  [⟨[(0, 0)], false⟩, ⟨[(0, 0)], false⟩]

/-- The fully filled board. -/
def fullGrid : Grid :=
  List.replicate GRID_HEIGHT (List.replicate GRID_WIDTH true)

/-! ### Generic list and fold helpers -/

theorem foldl_hom_eq {α : Type _} (step : ℤ → α → ℤ) (f : α → ℤ)
    (h : ∀ a x, step a x = a + f x) :
    ∀ (l : List α) (init : ℤ), l.foldl step init = init + (l.map f).sum
  | [], init => by simp
  | x :: xs, init => by
    rw [List.foldl_cons, h, foldl_hom_eq step f h xs, List.map_cons, List.sum_cons, add_assoc]

theorem foldl_fun_ext {α β : Type _} (f h : β → α → β) (H : ∀ b a, f b a = h b a) :
    ∀ (l : List α) (init : β), l.foldl f init = l.foldl h init
  | [], _ => rfl
  | x :: xs, init => by rw [List.foldl_cons, List.foldl_cons, H, foldl_fun_ext f h H xs]

theorem foldl_append_filter {α β : Type _} (p : α → Bool) (f : α → β) :
    ∀ (l : List α) (acc : List β),
      l.foldl (fun a x => if p x then a ++ [f x] else a) acc = acc ++ (l.filter p).map f
  | [], acc => by simp
  | x :: xs, acc => by
    cases hp : p x <;>
      simp [List.foldl_cons, hp, foldl_append_filter p f xs, List.filter_cons]

theorem foldl_append_concatMap {α β : Type _} (q : α → List β) :
    ∀ (l : List α) (init : List β),
      l.foldl (fun a x => a ++ q x) init = init ++ concatMapL q l
  | [], init => by simp [concatMapL]
  | x :: xs, init => by
    rw [List.foldl_cons, foldl_append_concatMap q xs, concatMapL, List.append_assoc]

theorem mem_concatMapL {α β : Type _} (q : α → List β) (b : β) :
    ∀ l : List α, b ∈ concatMapL q l ↔ ∃ a ∈ l, b ∈ q a
  | [] => by simp [concatMapL]
  | x :: xs => by
    simp [concatMapL, List.mem_append, mem_concatMapL q b xs]

theorem nodup_concatMap_pairs {α β : Type _} (cols : α → List β) :
    ∀ rows : List α, rows.Nodup → (∀ r, (cols r).Nodup) →
      (concatMapL (fun r => (cols r).map (fun c => (r, c))) rows).Nodup
  | [], _, _ => by simp [concatMapL]
  | r :: rs, hnd, hc => by
    rw [concatMapL]
    refine List.Nodup.append ?_ (nodup_concatMap_pairs cols rs (List.Nodup.of_cons hnd) hc) ?_
    · exact (hc r).map (fun c c' h => by injection h with h1 h2)
    · intro x hx1 hx2
      obtain ⟨c, _, rfl⟩ := List.mem_map.mp hx1
      obtain ⟨r', hr', hx'⟩ := (mem_concatMapL _ _ rs).mp hx2
      obtain ⟨c', _, h'⟩ := List.mem_map.mp hx'
      have hrr : r' = r := (Prod.ext_iff.mp h').1
      exact (List.nodup_cons.mp hnd).1 (hrr ▸ hr')

theorem pyRange_nodup (n : ℤ) : (pyRange n).Nodup := by
  rw [pyRange]
  exact List.Nodup.map Nat.cast_injective (List.nodup_range _)

theorem mem_pyRange (n : ℤ) (z : ℤ) : z ∈ pyRange n ↔ 0 ≤ z ∧ z < n := by
  rw [pyRange, List.mem_map]
  constructor
  · rintro ⟨k, hk, rfl⟩
    rw [List.mem_range] at hk
    omega
  · intro h
    refine ⟨z.toNat, ?_, ?_⟩
    · rw [List.mem_range]; omega
    · omega

theorem getD_mem_of_lt {α : Type _} [Inhabited α] :
    ∀ (l : List α) (i : ℕ), i < l.length → l.getD i default ∈ l
  | x :: _, 0, _ => by simp
  | x :: xs, i + 1, h => by
    simp only [List.getD_cons_succ]
    exact List.mem_cons_of_mem x (getD_mem_of_lt xs i (by simpa using h))

/-! ### Placement enumeration characterized -/

theorem placements_eq (g : Grid) (p0 : ℤ × ℤ) (rest : List (ℤ × ℤ)) :
    find_all_possible_placements g (p0 :: rest) =
      concatMapL (fun row =>
        (((pyRange ((GRID_WIDTH : ℤ) - ((rest.foldl (fun m q => max m q.2) p0.2) + 1) + 1)).filter
          (fun col => is_valid_placement g (p0 :: rest) row col)).map (fun col => (row, col))))
        (pyRange ((GRID_HEIGHT : ℤ) - ((rest.foldl (fun m q => max m q.1) p0.1) + 1) + 1)) := by
  rw [find_all_possible_placements]
  rw [foldl_fun_ext _ (fun acc row => acc ++
    ((pyRange ((GRID_WIDTH : ℤ) - ((rest.foldl (fun m q => max m q.2) p0.2) + 1) + 1)).filter
      (fun col => is_valid_placement g (p0 :: rest) row col)).map (fun col => (row, col)))
    (fun acc row => foldl_append_filter _ _ _ acc)]
  rw [foldl_append_concatMap]
  rfl

theorem placements_nodup (g : Grid) (shape : List (ℤ × ℤ)) :
    (find_all_possible_placements g shape).Nodup := by
  match shape with
  | [] => exact List.nodup_nil
  | p0 :: rest =>
    rw [placements_eq]
    exact nodup_concatMap_pairs _ _ (pyRange_nodup _)
      (fun r => (pyRange_nodup _).filter _)

theorem mem_placements (g : Grid) (p0 : ℤ × ℤ) (rest : List (ℤ × ℤ)) (rc : ℤ × ℤ) :
    rc ∈ find_all_possible_placements g (p0 :: rest) ↔
      rc.1 ∈ pyRange ((GRID_HEIGHT : ℤ) - ((rest.foldl (fun m q => max m q.1) p0.1) + 1) + 1) ∧
      rc.2 ∈ pyRange ((GRID_WIDTH : ℤ) - ((rest.foldl (fun m q => max m q.2) p0.2) + 1) + 1) ∧
      is_valid_placement g (p0 :: rest) rc.1 rc.2 = true := by
  obtain ⟨r, c⟩ := rc
  rw [placements_eq, mem_concatMapL]
  constructor
  · rintro ⟨row, hrow, hrc⟩
    obtain ⟨col, hcol, hpair⟩ := List.mem_map.mp hrc
    obtain ⟨h1, h2⟩ := List.mem_filter.mp hcol
    obtain ⟨rfl, rfl⟩ := Prod.ext_iff.mp hpair.symm
    exact ⟨hrow, h1, h2⟩
  · rintro ⟨h1, h2, h3⟩
    exact ⟨r, h1, List.mem_map.mpr ⟨c, List.mem_filter.mpr ⟨h2, h3⟩, rfl⟩⟩

theorem placements_nil_of_no_valid (g : Grid) (shape : List (ℤ × ℤ))
    (h : ∀ r c : ℤ, is_valid_placement g shape r c = false) :
    find_all_possible_placements g shape = [] := by
  match shape with
  | [] => rfl
  | p0 :: rest =>
    rw [placements_eq]
    have : ∀ row ∈ pyRange ((GRID_HEIGHT : ℤ) - ((rest.foldl (fun m q => max m q.1) p0.1) + 1) + 1),
        ((pyRange ((GRID_WIDTH : ℤ) - ((rest.foldl (fun m q => max m q.2) p0.2) + 1) + 1)).filter
          (fun col => is_valid_placement g (p0 :: rest) row col)).map (fun col => (row, col)) = [] := by
      intro row _
      rw [List.filter_eq_nil_iff.mpr (fun col _ => by simp [h row col])]
      rfl
    generalize pyRange ((GRID_HEIGHT : ℤ) - ((rest.foldl (fun m q => max m q.1) p0.1) + 1) + 1) = rows at this ⊢
    induction rows with
    | nil => rfl
    | cons a l ih =>
      rw [concatMapL, this a (List.mem_cons_self a l), List.nil_append]
      exact ih (fun row hrow => this row (List.mem_cons_of_mem a hrow))

/-! ### Permutation enumeration -/

theorem selections_fst_mem {α : Type _} :
    ∀ (l : List α) (p : α × List α), p ∈ selections l → p.1 ∈ l
  | [], _, hp => by simp [selections] at hp
  | x :: xs, p, hp => by
    rw [selections] at hp
    rcases List.mem_cons.mp hp with h | h
    · subst h; exact List.mem_cons_self _ _
    · obtain ⟨q, hq, rfl⟩ := List.mem_map.mp h
      exact List.mem_cons_of_mem x (selections_fst_mem xs q hq)

theorem selections_length {α : Type _} :
    ∀ (l : List α) (p : α × List α), p ∈ selections l → p.2.length + 1 = l.length
  | [], _, hp => by simp [selections] at hp
  | x :: xs, p, hp => by
    rw [selections] at hp
    rcases List.mem_cons.mp hp with h | h
    · subst h; rfl
    · obtain ⟨q, hq, rfl⟩ := List.mem_map.mp h
      have := selections_length xs q hq
      simp only [List.length_cons]
      omega

theorem selections_perm {α : Type _} :
    ∀ (l : List α) (p : α × List α), p ∈ selections l → l.Perm (p.1 :: p.2)
  | [], _, hp => by simp [selections] at hp
  | x :: xs, p, hp => by
    rw [selections] at hp
    rcases List.mem_cons.mp hp with h | h
    · subst h; exact List.Perm.refl _
    · obtain ⟨q, hq, rfl⟩ := List.mem_map.mp h
      exact ((selections_perm xs q hq).cons x).trans (List.Perm.swap _ _ _)

theorem mem_permsLexAux_perm {α : Type _} :
    ∀ (n : ℕ) (l : List α), l.length = n → ∀ o ∈ permsLexAux n l, l.Perm o
  | 0, l, hl, o, ho => by
    rw [permsLexAux] at ho
    simp at ho
    subst ho
    rw [List.length_eq_zero.mp hl]
  | n + 1, l, hl, o, ho => by
    rw [permsLexAux] at ho
    obtain ⟨p, hp, ho'⟩ := (mem_concatMapL _ _ _).mp ho
    obtain ⟨t, ht, rfl⟩ := List.mem_map.mp ho'
    have hlen : p.2.length = n := by have := selections_length l p hp; omega
    exact (selections_perm l p hp).trans ((mem_permsLexAux_perm n p.2 hlen t ht).cons p.1)

theorem permsLex_perm {α : Type _} (l : List α) (o : List α) (ho : o ∈ permsLex l) :
    l.Perm o :=
  mem_permsLexAux_perm l.length l rfl o ho

theorem permsLex_cons_struct {α : Type _} (l : List α) (hl : l ≠ []) :
    ∀ o ∈ permsLex l, ∃ h t, o = h :: t ∧ h ∈ l := by
  intro o ho
  rw [permsLex] at ho
  cases hll : l.length with
  | zero => exact absurd (List.length_eq_zero.mp hll) hl
  | succ n =>
    rw [hll, permsLexAux] at ho
    obtain ⟨p, hp, ho'⟩ := (mem_concatMapL _ _ _).mp ho
    obtain ⟨t, ht, rfl⟩ := List.mem_map.mp ho'
    exact ⟨p.1, t, rfl, selections_fst_mem l p hp⟩

/-! ### Unplaced slots -/

theorem unplaced_indices_nil (pieces : List Piece)
    (h : ∀ p ∈ pieces, p.placed = true) : unplaced_indices pieces = [] := by
  rw [unplaced_indices, List.filter_eq_nil_iff]
  intro i hi
  rw [List.mem_range] at hi
  have hmem := h (pieces.getD i default) (getD_mem_of_lt pieces i hi)
  intro hcon
  simp only [Bool.not_eq_true'] at hcon
  rw [hmem] at hcon
  exact Bool.noConfusion hcon

theorem unplaced_mem_not_placed (pieces : List Piece) (i : ℕ)
    (h : i ∈ unplaced_indices pieces) : (pieces.getD i default).placed = false := by
  rw [unplaced_indices] at h
  have := (List.mem_filter.mp h).2
  simpa using this

/-! ### Folds selecting a strictly improving best -/

theorem foldl_best_no_update {γ β : Type _} (score : γ → WithBot ℤ) (pay : γ → β) :
    ∀ (L : List γ) (s : WithBot ℤ × β), (∀ o ∈ L, score o = ⊥) →
      L.foldl (fun b o => if b.1 < score o then (score o, pay o) else b) s = s
  | [], _, _ => rfl
  | x :: xs, s, h => by
    rw [List.foldl_cons, if_neg (by rw [h x (List.mem_cons_self _ _)]; exact not_lt_bot)]
    exact foldl_best_no_update score pay xs s (fun o ho => h o (List.mem_cons_of_mem _ ho))

theorem foldl_best_lt {γ β : Type _} (score : γ → WithBot ℤ) (pay : γ → β) (v : WithBot ℤ) :
    ∀ (L : List γ) (s : WithBot ℤ × β), s.1 < v → (∀ o ∈ L, score o < v) →
      (L.foldl (fun b o => if b.1 < score o then (score o, pay o) else b) s).1 < v
  | [], _, hs, _ => hs
  | x :: xs, s, hs, h => by
    rw [List.foldl_cons]
    by_cases hc : s.1 < score x
    · rw [if_pos hc]
      exact foldl_best_lt score pay v xs _ (h x (List.mem_cons_self _ _))
        (fun o ho => h o (List.mem_cons_of_mem _ ho))
    · rw [if_neg hc]
      exact foldl_best_lt score pay v xs s hs (fun o ho => h o (List.mem_cons_of_mem _ ho))

theorem foldl_best_le_keep {γ β : Type _} (score : γ → WithBot ℤ) (pay : γ → β) :
    ∀ (L : List γ) (s : WithBot ℤ × β), (∀ o ∈ L, score o ≤ s.1) →
      L.foldl (fun b o => if b.1 < score o then (score o, pay o) else b) s = s
  | [], _, _ => rfl
  | x :: xs, s, h => by
    rw [List.foldl_cons, if_neg (not_lt.mpr (h x (List.mem_cons_self _ _)))]
    exact foldl_best_le_keep score pay xs s (fun o ho => h o (List.mem_cons_of_mem _ ho))

theorem foldl_first_argmax {γ β : Type _} (score : γ → WithBot ℤ) (pay : γ → β)
    (L1 L2 : List γ) (x : γ) (s0 : WithBot ℤ × β)
    (hs0 : s0.1 < score x)
    (h1 : ∀ o ∈ L1, score o < score x)
    (h2 : ∀ o ∈ L2, score o ≤ score x) :
    (L1 ++ x :: L2).foldl (fun b o => if b.1 < score o then (score o, pay o) else b) s0
      = (score x, pay x) := by
  rw [List.foldl_append, List.foldl_cons,
    if_pos (foldl_best_lt score pay (score x) L1 s0 hs0 h1)]
  exact foldl_best_le_keep score pay L2 _ h2

theorem foldl_unique_max {γ β : Type _} (score : γ → WithBot ℤ) (pay : γ → β)
    (L : List γ) (x : γ) (s0 : WithBot ℤ × β)
    (hx : x ∈ L) (hnd : L.Nodup) (hs0 : s0.1 < score x)
    (hlt : ∀ y ∈ L, y ≠ x → score y < score x) :
    L.foldl (fun b o => if b.1 < score o then (score o, pay o) else b) s0
      = (score x, pay x) := by
  obtain ⟨L1, L2, rfl⟩ := List.append_of_mem hx
  have hnd' := List.nodup_append.mp hnd
  refine foldl_first_argmax score pay L1 L2 x s0 hs0 ?_ ?_
  · intro o ho
    refine hlt o (List.mem_append_left _ ho) ?_
    rintro rfl
    exact hnd'.2.2 ho (List.mem_cons_self _ _)
  · intro o ho
    by_cases heq : o = x
    · rw [heq]
    · exact le_of_lt (hlt o (List.mem_append_right _ (List.mem_cons_of_mem _ ho)) heq)

/-! ### Dead ends -/

theorem rec_dead_of_placements_nil (g : Grid) (pieces : List Piece) (i : ℕ) (rest : List ℕ)
    (h : find_all_possible_placements g (pieces.getD i default).shape = []) :
    find_best_outcome_recursive g pieces (i :: rest) = ((⊥ : WithBot ℤ), []) := by
  simp only [find_best_outcome_recursive]
  rw [h]
  rfl

theorem getCellN_fullGrid (a b : ℕ) (ha : a < 8) (hb : b < 8) :
    getCellN fullGrid a b = true := by
  interval_cases a <;> interval_cases b <;> rfl

theorem fullGrid_no_valid (r c : ℤ) :
    is_valid_placement fullGrid [((0 : ℤ), (0 : ℤ))] r c = false := by
  rw [is_valid_placement]
  simp only [List.all_cons, List.all_nil, Bool.and_true, add_zero]
  by_cases h1 : 0 ≤ r
  · by_cases h2 : r < (GRID_HEIGHT : ℤ)
    · by_cases h3 : 0 ≤ c
      · by_cases h4 : c < (GRID_WIDTH : ℤ)
        · have h2' : r < (8 : ℤ) := by simpa [GRID_HEIGHT] using h2
          have h4' : c < (8 : ℤ) := by simpa [GRID_WIDTH] using h4
          rw [getCellN_fullGrid r.toNat c.toNat (by omega) (by omega)]
          simp
        · simp [h4]
      · simp [h3]
    · simp [h2]
  · simp [h1]

/-! ### Claims C3, C7, C8, C9 -/

/-- C3: if at least one piece is unplaced and no unplaced piece has any
legal placement anywhere on the grid, `find_best_move_sequence` returns
the explicit no-solution value `none`. -/
theorem claim_C3_no_solution (g : Grid) (pieces : List Piece)
    (hne : unplaced_indices pieces ≠ [])
    (hval : ∀ i ∈ unplaced_indices pieces, ∀ r c : ℤ,
      is_valid_placement g (pieces.getD i default).shape r c = false) :
    find_best_move_sequence g pieces = none := by
  simp only [find_best_move_sequence]
  have hall : ∀ o ∈ permsLex (unplaced_indices pieces),
      (find_best_outcome_recursive g pieces o).1 = ⊥ := by
    intro o ho
    obtain ⟨hd, t, rfl, hmem⟩ := permsLex_cons_struct _ hne o ho
    rw [rec_dead_of_placements_nil g pieces hd t
      (placements_nil_of_no_valid _ _ (hval hd hmem))]
  exact congrArg Prod.snd (foldl_best_no_update
    (fun ord => (find_best_outcome_recursive g pieces ord).1)
    (fun ord => some (find_best_outcome_recursive g pieces ord).2)
    (permsLex (unplaced_indices pieces)) ((⊥ : WithBot ℤ), none) hall)

theorem claim_C3_witness :
    unplaced_indices [(⟨[(0, 0)], false⟩ : Piece)] ≠ [] ∧
      find_best_move_sequence fullGrid [⟨[(0, 0)], false⟩] = none := by
  refine ⟨by decide, claim_C3_no_solution fullGrid [⟨[(0, 0)], false⟩] (by decide) ?_⟩
  intro i hi r c
  rw [show unplaced_indices [(⟨[(0, 0)], false⟩ : Piece)] = [0] by decide] at hi
  rw [List.mem_singleton] at hi
  subst hi
  exact fullGrid_no_valid r c

/-- C7: on the all-empty 8×8 grid, the enumerator lists exactly
`H × (W − 1) = 56` anchors for the horizontal 1×2 shape, in row-major
order (all columns of row 0 first, then row 1, and so on). -/
theorem claim_C7_enumeration_empty_grid :
    find_all_possible_placements emptyGrid shape1x2 = rowMajorAnchors1x2 ∧
      rowMajorAnchors1x2.length = 56 :=
  ⟨by decide, by decide⟩

/-- C8: an empty shape yields no placements on any grid, and a search
branch whose piece shape is empty is an ordinary dead end with the
negative-infinity score, not a fault. -/
theorem claim_C8_empty_shape (g : Grid) (pieces : List Piece) (i : ℕ) (rest : List ℕ)
    (h : (pieces.getD i default).shape = []) :
    find_all_possible_placements g [] = [] ∧
      find_best_outcome_recursive g pieces (i :: rest) = ((⊥ : WithBot ℤ), []) :=
  ⟨rfl, rec_dead_of_placements_nil g pieces i rest (by rw [h]; rfl)⟩

theorem claim_C8_witness :
    (([(⟨[], false⟩ : Piece)].getD 0 default).shape = []) ∧
      (find_all_possible_placements emptyGrid [] = [] ∧
        find_best_outcome_recursive emptyGrid [⟨[], false⟩] [0] = ((⊥ : WithBot ℤ), [])) :=
  ⟨rfl, claim_C8_empty_shape emptyGrid [⟨[], false⟩] 0 [] rfl⟩

/-- C9: if every piece slot is marked placed, the search returns the empty
sequence `some []` (not the no-solution value `none`), through the trivial
base case of the recursion. -/
theorem claim_C9_all_placed (g : Grid) (pieces : List Piece)
    (h : ∀ p ∈ pieces, p.placed = true) :
    find_best_move_sequence g pieces = some [] := by
  simp only [find_best_move_sequence]
  rw [unplaced_indices_nil pieces h]
  have hb : ((⊥ : WithBot ℤ), (none : Option (List Move))).1
      < (find_best_outcome_recursive g pieces []).1 := by
    simp only [find_best_outcome_recursive]
    exact WithBot.bot_lt_coe _
  rw [show permsLex ([] : List ℕ) = [[]] from rfl, List.foldl_cons, if_pos hb, List.foldl_nil]
  simp only [find_best_outcome_recursive]

theorem claim_C9_witness :
    (∀ p ∈ [(⟨[(0, 0)], true⟩ : Piece)], p.placed = true) ∧
      find_best_move_sequence emptyGrid [⟨[(0, 0)], true⟩] = some [] :=
  ⟨by decide, claim_C9_all_placed emptyGrid [⟨[(0, 0)], true⟩] (by decide)⟩

/-! ### The evaluator as a sum over the board -/

theorem range_map_sum (f : ℕ → ℤ) :
    ∀ n : ℕ, ((List.range n).map f).sum = ∑ i ∈ Finset.range n, f i
  | 0 => by simp
  | n + 1 => by
    rw [List.range_succ, List.map_append, List.sum_append, range_map_sum f n,
      Finset.sum_range_succ]
    simp

theorem icc_int_eq_image :
    Finset.Icc (0 : ℤ) 7 = (Finset.range 8).image (fun (i : ℕ) => (i : ℤ)) := by
  ext z
  simp only [Finset.mem_Icc, Finset.mem_image, Finset.mem_range]
  constructor
  · intro h
    exact ⟨z.toNat, by omega, by omega⟩
  · rintro ⟨i, hi, rfl⟩
    omega

theorem icc_sum_eq_range (f : ℤ → ℤ) :
    ∑ z ∈ Finset.Icc (0 : ℤ) 7, f z = ∑ i ∈ Finset.range 8, f (i : ℤ) := by
  rw [icc_int_eq_image, Finset.sum_image]
  intro i _ j _ hij
  exact_mod_cast hij

theorem zbox_sum (h : ℤ × ℤ → ℤ) :
    ∑ p ∈ zbox, h p = ∑ r ∈ Finset.range 8, ∑ c ∈ Finset.range 8, h ((r : ℤ), (c : ℤ)) := by
  rw [zbox, Finset.sum_product,
    icc_sum_eq_range (fun z => ∑ w ∈ Finset.Icc (0 : ℤ) 7, h (z, w))]
  exact Finset.sum_congr rfl (fun r _ => icc_sum_eq_range (fun w => h ((r : ℤ), w)))

theorem cellB_coe (g : Grid) (r c : ℕ) (hr : r < 8) (hc : c < 8) :
    cellB g ((r : ℤ), (c : ℤ)) = if getCellN g r c = true then 1 else 0 := by
  rw [cellB]
  have h1 : ((r : ℤ)).toNat = r := Int.toNat_natCast r
  have h2 : ((c : ℤ)).toNat = c := Int.toNat_natCast c
  simp only [h1, h2]
  refine if_congr ?_ rfl rfl
  constructor
  · exact fun hh => hh.2.2.2.2
  · intro hh
    exact ⟨Int.natCast_nonneg r, Nat.cast_lt.mpr hr, Int.natCast_nonneg c,
      Nat.cast_lt.mpr hc, hh⟩

theorem count_filled_cells_eq_spec (g : Grid) : count_filled_cells g = filledCountSpec g := by
  have inner : ∀ (col : ℕ) (acc : ℤ),
      (List.range GRID_WIDTH).foldl
        (fun acc2 row => if getCellN g row col = true then acc2 + 1 else acc2) acc
      = acc + ∑ row ∈ Finset.range GRID_WIDTH,
          (if getCellN g row col = true then (1 : ℤ) else 0) := by
    intro col acc
    rw [foldl_hom_eq _ (fun row => if getCellN g row col = true then (1 : ℤ) else 0)
      (fun a x => by by_cases hx : getCellN g x col = true <;> simp [hx]), range_map_sum]
  rw [count_filled_cells,
    foldl_hom_eq _
      (fun col => ∑ row ∈ Finset.range GRID_WIDTH,
        (if getCellN g row col = true then (1 : ℤ) else 0))
      (fun a x => inner x a),
    range_map_sum, zero_add, filledCountSpec, zbox_sum, Finset.sum_comm]
  refine Finset.sum_congr rfl (fun c hc => Finset.sum_congr rfl (fun r hr => ?_))
  rw [cellB_coe g c r (Finset.mem_range.mp hc) (Finset.mem_range.mp hr)]

theorem check_surrounding_eq_neighborSum (g : Grid) (row col : ℕ) :
    check_surrounding_cells g row col = neighborSum g ((row : ℤ), (col : ℤ)) := by
  have hstep : ∀ (a : ℤ) (d : ℤ × ℤ),
      (if 0 ≤ (row : ℤ) + d.1 ∧ (row : ℤ) + d.1 < (GRID_HEIGHT : ℤ) ∧ 0 ≤ (col : ℤ) + d.2 ∧
          (col : ℤ) + d.2 < (GRID_WIDTH : ℤ) ∧
          getCellN g ((row : ℤ) + d.1).toNat ((col : ℤ) + d.2).toNat = true
        then a + 1 else a)
      = a + cellB g ((row : ℤ) + d.1, (col : ℤ) + d.2) := by
    intro a d
    rw [cellB]
    by_cases hd : (0 ≤ (row : ℤ) + d.1 ∧ (row : ℤ) + d.1 < (GRID_HEIGHT : ℤ) ∧
        0 ≤ (col : ℤ) + d.2 ∧ (col : ℤ) + d.2 < (GRID_WIDTH : ℤ) ∧
        getCellN g ((row : ℤ) + d.1).toNat ((col : ℤ) + d.2).toNat = true)
    · rw [if_pos hd, if_pos hd]
    · rw [if_neg hd, if_neg hd, add_zero]
  rw [check_surrounding_cells, foldl_hom_eq _ _ hstep, zero_add, neighborSum]

theorem check_block_clusters_eq_spec (g : Grid) :
    check_block_clusters g = clusterScoreSpec g := by
  have inner : ∀ (row : ℕ) (acc : ℤ),
      (List.range GRID_WIDTH).foldl
        (fun acc2 col => if getCellN g row col = true
          then acc2 + check_surrounding_cells g row col else acc2) acc
      = acc + ∑ col ∈ Finset.range GRID_WIDTH,
          (if getCellN g row col = true then check_surrounding_cells g row col else 0) := by
    intro row acc
    rw [foldl_hom_eq _
      (fun col => if getCellN g row col = true then check_surrounding_cells g row col else 0)
      (fun a x => by by_cases hx : getCellN g row x = true <;> simp [hx]), range_map_sum]
  rw [check_block_clusters,
    foldl_hom_eq _
      (fun row => ∑ col ∈ Finset.range GRID_WIDTH,
        (if getCellN g row col = true then check_surrounding_cells g row col else 0))
      (fun a x => inner x a),
    range_map_sum, zero_add, clusterScoreSpec, zbox_sum]
  refine Finset.sum_congr rfl (fun r hr => Finset.sum_congr rfl (fun c hc => ?_))
  rw [check_surrounding_eq_neighborSum g r c,
    cellB_coe g r c (Finset.mem_range.mp hr) (Finset.mem_range.mp hc)]
  by_cases hgc : getCellN g r c = true
  · rw [if_pos hgc, if_pos hgc, one_mul]
  · rw [if_neg hgc, if_neg hgc, zero_mul]

theorem evaluate_board_formula (g : Grid) (lc : ℤ) :
    evaluate_board g lc =
      if filledCountSpec g = 0 then 10000
      else 2000 * lc ^ 2 - 10 * filledCountSpec g + 20 * clusterScoreSpec g := by
  simp only [evaluate_board, WEIGHT_LINES_CLEARED, WEIGHT_FILLED_CELLS, WEIGHT_CLUSTERING,
    BONUS_ALL_CLEAR, count_filled_cells_eq_spec, check_block_clusters_eq_spec]
  by_cases h : filledCountSpec g = 0
  · rw [if_pos h, if_pos h]
  · rw [if_neg h, if_neg h]
    ring

/-- C5: for every grid with at least one filled cell and every integer
`linesCleared`, the evaluator returns exactly
`2000·linesCleared² − 10·filledCount + 20·clusterScore`, where
`filledCount` is the number of filled cells and `clusterScore` sums, over
every filled cell, the number of its orthogonally-adjacent filled
neighbors (each adjacent filled pair counted twice). -/
theorem claim_C5_evaluator_formula (g : Grid) (lc : ℤ) (h : filledCountSpec g ≠ 0) :
    evaluate_board g lc = 2000 * lc ^ 2 - 10 * filledCountSpec g + 20 * clusterScoreSpec g := by
  rw [evaluate_board_formula, if_neg h]

theorem claim_C5_witness :
    filledCountSpec [[true]] ≠ 0 ∧
      evaluate_board [[true]] (-3) =
        2000 * (-3 : ℤ) ^ 2 - 10 * filledCountSpec [[true]] + 20 * clusterScoreSpec [[true]] :=
  ⟨by decide, claim_C5_evaluator_formula [[true]] (-3) (by decide)⟩

/-- C6: on a grid with zero filled cells the evaluator returns exactly
10000, for every `linesCleared` argument, including zero and negative
values, ignoring all other terms. -/
theorem claim_C6_all_clear_bonus (g : Grid) (lc : ℤ) (h : filledCountSpec g = 0) :
    evaluate_board g lc = 10000 := by
  rw [evaluate_board_formula, if_pos h]

theorem claim_C6_witness :
    filledCountSpec emptyGrid = 0 ∧ evaluate_board emptyGrid (-2) = 10000 :=
  ⟨by decide, claim_C6_all_clear_bonus emptyGrid (-2) (by decide)⟩

/-! ### Soundness of the recursive search (C4) -/

theorem mem_placements_valid (g : Grid) (shape : List (ℤ × ℤ)) (rc : ℤ × ℤ)
    (h : rc ∈ find_all_possible_placements g shape) :
    is_valid_placement g shape rc.1 rc.2 = true := by
  match shape with
  | [] => simp [find_all_possible_placements] at h
  | p0 :: rest => exact ((mem_placements g p0 rest rc).mp h).2.2

theorem foldl_invariant {α β : Type _} (P : β → Prop) (f : β → α → β) :
    ∀ (l : List α) (init : β), P init → (∀ b a, a ∈ l → P b → P (f b a)) →
      P (l.foldl f init)
  | [], _, h0, _ => h0
  | x :: xs, init, h0, hstep => by
    rw [List.foldl_cons]
    exact foldl_invariant P f xs (f init x) (hstep init x (List.mem_cons_self _ _) h0)
      (fun b a ha hb => hstep b a (List.mem_cons_of_mem _ ha) hb)

theorem ne_bot_of_add_coe_ne_bot (m : ℤ) (w : WithBot ℤ)
    (h : ((m : WithBot ℤ) + w) ≠ ⊥) : w ≠ ⊥ := by
  intro hw
  rw [hw, WithBot.add_bot] at h
  exact h rfl

theorem rec_sound (pieces : List Piece) :
    ∀ (order : List ℕ) (g : Grid),
      (find_best_outcome_recursive g pieces order).1 ≠ ⊥ →
      ((find_best_outcome_recursive g pieces order).2.map (fun m => m.1) = order ∧
        seqLegal g pieces (find_best_outcome_recursive g pieces order).2 = true)
  | [], g, _ => by
    simp only [find_best_outcome_recursive]
    exact ⟨rfl, rfl⟩
  | i :: rest, g, hne => by
    revert hne
    simp only [find_best_outcome_recursive]
    refine foldl_invariant
      (fun s : WithBot ℤ × List Move => s.1 ≠ ⊥ →
        (s.2.map (fun m => m.1) = i :: rest ∧ seqLegal g pieces s.2 = true))
      _ _ _ (fun hbot => absurd rfl hbot) ?_
    intro b rc hrc hb
    by_cases hlt : b.1 <
        ((((find_and_clear_lines (place_piece g (pieces.getD i default).shape rc.1 rc.2)).1 : ℤ) ^ 2
            * WEIGHT_LINES_CLEARED : ℤ) : WithBot ℤ) +
          (find_best_outcome_recursive
            (find_and_clear_lines (place_piece g (pieces.getD i default).shape rc.1 rc.2)).2
            pieces rest).1
    · rw [if_pos hlt]
      intro hne'
      have hfut : (find_best_outcome_recursive
          (find_and_clear_lines (place_piece g (pieces.getD i default).shape rc.1 rc.2)).2
          pieces rest).1 ≠ ⊥ := ne_bot_of_add_coe_ne_bot _ _ hne'
      have ih := rec_sound pieces rest
        (find_and_clear_lines (place_piece g (pieces.getD i default).shape rc.1 rc.2)).2 hfut
      constructor
      · rw [List.map_cons, ih.1]
      · rw [seqLegal]
        rw [mem_placements_valid g (pieces.getD i default).shape rc hrc]
        rw [Bool.true_and]
        exact ih.2
    · rw [if_neg hlt]
      exact hb

/-- C4: whenever the search returns a sequence (rather than `none`), that
sequence covers exactly the unplaced slot indices, each once and no placed
index, and every move in it is a legal placement on the grid obtained by
applying all earlier moves in order and clearing completed lines after
each. -/
theorem claim_C4_sequence_validity (g : Grid) (pieces : List Piece) (seq : List Move)
    (h : find_best_move_sequence g pieces = some seq) :
    (seq.map (fun m => m.1)).Perm (unplaced_indices pieces) ∧
      seqLegal g pieces seq = true := by
  revert h
  simp only [find_best_move_sequence]
  have hinv := foldl_invariant
    (fun s : WithBot ℤ × Option (List Move) => ∀ sq, s.2 = some sq →
      ((sq.map (fun m => m.1)).Perm (unplaced_indices pieces) ∧
        seqLegal g pieces sq = true))
    (fun best ord =>
      if best.1 < (find_best_outcome_recursive g pieces ord).1
      then ((find_best_outcome_recursive g pieces ord).1,
        some (find_best_outcome_recursive g pieces ord).2)
      else best)
    (permsLex (unplaced_indices pieces)) ((⊥ : WithBot ℤ), none)
    (fun sq hsq => Option.noConfusion hsq) ?_
  · intro h
    exact hinv seq h
  · intro b ord hord hb
    show ∀ sq, (if b.1 < (find_best_outcome_recursive g pieces ord).1
        then ((find_best_outcome_recursive g pieces ord).1,
          some (find_best_outcome_recursive g pieces ord).2)
        else b).2 = some sq →
      ((sq.map (fun m => m.1)).Perm (unplaced_indices pieces) ∧
        seqLegal g pieces sq = true)
    by_cases hlt : b.1 < (find_best_outcome_recursive g pieces ord).1
    · rw [if_pos hlt]
      intro sq hsq
      have hsq' := Option.some.inj hsq
      subst hsq'
      have hne : (find_best_outcome_recursive g pieces ord).1 ≠ ⊥ := by
        intro hbot
        rw [hbot] at hlt
        exact not_lt_bot hlt
      have hsound := rec_sound pieces ord g hne
      refine ⟨?_, hsound.2⟩
      rw [hsound.1]
      exact (permsLex_perm _ ord hord).symm
    · rw [if_neg hlt]
      exact hb

theorem claim_C4_witness :
    find_best_move_sequence (gridFullBut [(3, 4)]) [⟨[(0, 0)], false⟩]
        = some [(0, 3, 4)] ∧
      (([((0 : ℕ), (3 : ℤ), (4 : ℤ))].map (fun m => m.1)).Perm
          (unplaced_indices [⟨[(0, 0)], false⟩]) ∧
        seqLegal (gridFullBut [(3, 4)]) [⟨[(0, 0)], false⟩] [(0, 3, 4)] = true) :=
  ⟨by decide, claim_C4_sequence_validity (gridFullBut [(3, 4)]) [⟨[(0, 0)], false⟩]
    [(0, 3, 4)] (by decide)⟩

/-! ### Determinism and tie-breaking (C1) -/

theorem foldl_fst_rel {α β1 β2 : Type _}
    (f1 : (WithBot ℤ × β1) → α → (WithBot ℤ × β1))
    (f2 : (WithBot ℤ × β2) → α → (WithBot ℤ × β2))
    (h : ∀ s1 s2 a, s1.1 = s2.1 → (f1 s1 a).1 = (f2 s2 a).1) :
    ∀ (l : List α) (s1 : WithBot ℤ × β1) (s2 : WithBot ℤ × β2), s1.1 = s2.1 →
      (l.foldl f1 s1).1 = (l.foldl f2 s2).1
  | [], _, _, h12 => h12
  | x :: xs, s1, s2, h12 => by
    rw [List.foldl_cons, List.foldl_cons]
    exact foldl_fst_rel f1 f2 h xs _ _ (h s1 s2 x h12)

theorem rec_score_shape_eq (pieces : List Piece) :
    ∀ (o1 o2 : List ℕ) (g : Grid),
      o1.map (fun i => (pieces.getD i default).shape)
        = o2.map (fun i => (pieces.getD i default).shape) →
      (find_best_outcome_recursive g pieces o1).1
        = (find_best_outcome_recursive g pieces o2).1
  | [], [], _, _ => rfl
  | [], _ :: _, _, h => by simp at h
  | _ :: _, [], _, h => by simp at h
  | i :: r1, j :: r2, g, h => by
    rw [List.map_cons, List.map_cons] at h
    injection h with hshape hrest
    simp only [find_best_outcome_recursive]
    rw [hshape]
    refine foldl_fst_rel _ _ ?_ _ _ _ rfl
    intro s1 s2 rc h12
    have hrec := rec_score_shape_eq pieces r1 r2
      (find_and_clear_lines (place_piece g (pieces.getD j default).shape rc.1 rc.2)).2 hrest
    show (if s1.1 < (((((find_and_clear_lines
          (place_piece g (pieces.getD j default).shape rc.1 rc.2)).1 : ℤ) ^ 2
            * WEIGHT_LINES_CLEARED : ℤ) : WithBot ℤ) +
          (find_best_outcome_recursive (find_and_clear_lines
            (place_piece g (pieces.getD j default).shape rc.1 rc.2)).2 pieces r1).1)
        then _ else s1).1 =
      (if s2.1 < (((((find_and_clear_lines
          (place_piece g (pieces.getD j default).shape rc.1 rc.2)).1 : ℤ) ^ 2
            * WEIGHT_LINES_CLEARED : ℤ) : WithBot ℤ) +
          (find_best_outcome_recursive (find_and_clear_lines
            (place_piece g (pieces.getD j default).shape rc.1 rc.2)).2 pieces r2).1)
        then _ else s2).1
    rw [hrec, h12]
    by_cases hc : s2.1 < (((((find_and_clear_lines
        (place_piece g (pieces.getD j default).shape rc.1 rc.2)).1 : ℤ) ^ 2
          * WEIGHT_LINES_CLEARED : ℤ) : WithBot ℤ) +
        (find_best_outcome_recursive (find_and_clear_lines
          (place_piece g (pieces.getD j default).shape rc.1 rc.2)).2 pieces r2).1)
    · rw [if_pos hc, if_pos hc]
    · rw [if_neg hc, if_neg hc]
      exact h12

theorem rec_cons_eq (g : Grid) (pieces : List Piece) (i : ℕ) (rest : List ℕ) :
    find_best_outcome_recursive g pieces (i :: rest) =
      (find_all_possible_placements g (pieces.getD i default).shape).foldl
        (fun b rc => if b.1 < recBranchScore g pieces i rest rc
          then (recBranchScore g pieces i rest rc, recBranchSeq g pieces i rest rc) else b)
        ((⊥ : WithBot ℤ), []) := rfl

theorem foldl_best_fst_le {γ β : Type _} (score : γ → WithBot ℤ) (pay : γ → β) :
    ∀ (L : List γ) (s : WithBot ℤ × β),
      s.1 ≤ (L.foldl (fun b o => if b.1 < score o then (score o, pay o) else b) s).1
  | [], _ => le_refl _
  | x :: xs, s => by
    rw [List.foldl_cons]
    by_cases hc : s.1 < score x
    · rw [if_pos hc]
      exact le_trans (le_of_lt hc) (foldl_best_fst_le score pay xs (score x, pay x))
    · rw [if_neg hc]
      exact foldl_best_fst_le score pay xs s

theorem foldl_best_fst_ge_of_mem {γ β : Type _} (score : γ → WithBot ℤ) (pay : γ → β)
    (L : List γ) (x : γ) (hx : x ∈ L) (s : WithBot ℤ × β) :
    score x ≤ (L.foldl (fun b o => if b.1 < score o then (score o, pay o) else b) s).1 := by
  obtain ⟨L1, L2, rfl⟩ := List.append_of_mem hx
  rw [List.foldl_append, List.foldl_cons]
  by_cases hc : (L1.foldl (fun b o => if b.1 < score o then (score o, pay o) else b) s).1 < score x
  · rw [if_pos hc]
    exact foldl_best_fst_le score pay L2 (score x, pay x)
  · rw [if_neg hc]
    exact le_trans (not_lt.mp hc) (foldl_best_fst_le score pay L2 _)

theorem rec_nil_ne_bot (g : Grid) (pieces : List Piece) :
    (find_best_outcome_recursive g pieces []).1 ≠ ⊥ := by
  simp only [find_best_outcome_recursive]
  exact WithBot.coe_ne_bot

theorem rec_gt_bot_of_branch (g : Grid) (pieces : List Piece) (i : ℕ) (rest : List ℕ)
    (rc : ℤ × ℤ)
    (hrc : rc ∈ find_all_possible_placements g (pieces.getD i default).shape)
    (hfut : (find_best_outcome_recursive
      (find_and_clear_lines (place_piece g (pieces.getD i default).shape rc.1 rc.2)).2
      pieces rest).1 ≠ ⊥) :
    (⊥ : WithBot ℤ) < (find_best_outcome_recursive g pieces (i :: rest)).1 := by
  rw [rec_cons_eq]
  refine lt_of_lt_of_le ?_ (foldl_best_fst_ge_of_mem
    (recBranchScore g pieces i rest) (recBranchSeq g pieces i rest)
    _ rc hrc ((⊥ : WithBot ℤ), []))
  simp only [recBranchScore]
  rw [bot_lt_iff_ne_bot, WithBot.add_ne_bot]
  exact ⟨WithBot.coe_ne_bot, hfut⟩

theorem forall_mem_take_of_indexed {α : Type _} (L : List α) (n : ℕ) (P : α → Prop)
    (h : ∀ (l : ℕ) (hl : l < L.length), l < n → P (L.get ⟨l, hl⟩)) :
    ∀ o ∈ L.take n, P o := by
  intro o ho
  obtain ⟨k, hk, hko⟩ := List.mem_iff_getElem.mp ho
  rw [List.length_take] at hk
  have hkL : k < L.length := lt_of_lt_of_le hk (min_le_right _ _)
  have hkn : k < n := lt_of_lt_of_le hk (min_le_left _ _)
  have := h k hkL hkn
  rw [List.get_eq_getElem] at this
  rw [← hko, List.getElem_take]
  exact this

theorem forall_mem_drop_of_indexed {α : Type _} (L : List α) (n : ℕ) (P : α → Prop)
    (h : ∀ (l : ℕ) (hl : l < L.length), P (L.get ⟨l, hl⟩)) :
    ∀ o ∈ L.drop n, P o := by
  intro o ho
  have hoL : o ∈ L := List.mem_of_mem_drop ho
  obtain ⟨k, hk, hko⟩ := List.mem_iff_getElem.mp hoL
  have := h k hk
  rw [List.get_eq_getElem] at this
  rw [← hko]
  exact this

/-- C1: slots with identical shapes are interchangeable in any search
order without affecting the score, and `find_best_move_sequence` returns
the sequence produced by the earliest permutation (in the lexicographic
generation order of `permsLex`) attaining the maximum score, because only
a strictly greater score replaces the current best. -/
theorem claim_C1_determinism_tiebreak (g : Grid) (pieces : List Piece) (i j : ℕ)
    (hshape : (pieces.getD i default).shape = (pieces.getD j default).shape) :
    (∀ o : List ℕ,
      (find_best_outcome_recursive g pieces (o.map (swap_index i j))).1 =
        (find_best_outcome_recursive g pieces o).1) ∧
    (∀ (n : ℕ) (hn : n < (permsLex (unplaced_indices pieces)).length),
      (∀ (l : ℕ) (hl : l < (permsLex (unplaced_indices pieces)).length), l < n →
        (find_best_outcome_recursive g pieces
          ((permsLex (unplaced_indices pieces)).get ⟨l, hl⟩)).1 <
        (find_best_outcome_recursive g pieces
          ((permsLex (unplaced_indices pieces)).get ⟨n, hn⟩)).1) →
      (∀ (l : ℕ) (hl : l < (permsLex (unplaced_indices pieces)).length),
        (find_best_outcome_recursive g pieces
          ((permsLex (unplaced_indices pieces)).get ⟨l, hl⟩)).1 ≤
        (find_best_outcome_recursive g pieces
          ((permsLex (unplaced_indices pieces)).get ⟨n, hn⟩)).1) →
      (⊥ : WithBot ℤ) <
        (find_best_outcome_recursive g pieces
          ((permsLex (unplaced_indices pieces)).get ⟨n, hn⟩)).1 →
      find_best_move_sequence g pieces =
        some (find_best_outcome_recursive g pieces
          ((permsLex (unplaced_indices pieces)).get ⟨n, hn⟩)).2) := by
  constructor
  · intro o
    apply rec_score_shape_eq
    rw [List.map_map]
    apply List.map_congr_left
    intro x _
    show (pieces.getD (swap_index i j x) default).shape = (pieces.getD x default).shape
    rw [swap_index]
    by_cases hxi : x = i
    · rw [if_pos hxi, hxi]
      exact hshape.symm
    · rw [if_neg hxi]
      by_cases hxj : x = j
      · rw [if_pos hxj, hxj]
        exact hshape
      · rw [if_neg hxj]
  · intro n hn hfirst hmax hbot
    simp only [find_best_move_sequence]
    have hdec : permsLex (unplaced_indices pieces) =
        (permsLex (unplaced_indices pieces)).take n ++
          (permsLex (unplaced_indices pieces)).get ⟨n, hn⟩ ::
            (permsLex (unplaced_indices pieces)).drop (n + 1) := by
      conv_lhs => rw [← List.take_append_drop n (permsLex (unplaced_indices pieces))]
      congr 1
      rw [List.get_eq_getElem]
      exact List.drop_eq_getElem_cons hn
    conv_lhs => rw [hdec]
    rw [foldl_first_argmax (fun ord => (find_best_outcome_recursive g pieces ord).1)
      (fun ord => some (find_best_outcome_recursive g pieces ord).2)
      _ _ _ _ hbot
      (forall_mem_take_of_indexed _ n _ (fun l hl hln => hfirst l hl hln))
      (forall_mem_drop_of_indexed _ (n + 1) _ (fun l hl => hmax l hl))]

theorem claim_C1_witness :
    ((c1pieces.getD 0 default).shape = (c1pieces.getD 1 default).shape) ∧
    (find_best_outcome_recursive c1grid c1pieces ([0, 1].map (swap_index 0 1))).1 =
      (find_best_outcome_recursive c1grid c1pieces [0, 1]).1 ∧
    find_best_move_sequence c1grid c1pieces =
      some (find_best_outcome_recursive c1grid c1pieces
        ((permsLex (unplaced_indices c1pieces)).get ⟨0, by decide⟩)).2 := by
  have h := claim_C1_determinism_tiebreak c1grid c1pieces 0 1 rfl
  refine ⟨rfl, h.1 [0, 1],
    h.2 0 (by decide) (fun l hl hl0 => absurd hl0 (Nat.not_lt_zero l)) ?_ ?_⟩
  · intro l hl
    have hl2 : l < 2 := by
      have hlen : (permsLex (unplaced_indices c1pieces)).length = 2 := by decide
      omega
    interval_cases l
    · exact le_refl _
    · exact le_of_eq (h.1 [0, 1])
  · show (⊥ : WithBot ℤ) < (find_best_outcome_recursive c1grid c1pieces [0, 1]).1
    refine rec_gt_bot_of_branch c1grid c1pieces 0 [1] ((0 : ℤ), (0 : ℤ)) (by decide) ?_
    exact bot_lt_iff_ne_bot.mp
      (rec_gt_bot_of_branch _ c1pieces 1 [] ((0 : ℤ), (1 : ℤ)) (by decide)
        (rec_nil_ne_bot _ _))

/-! ### Frame effect on the caller's objects (C10) -/

theorem rec_st_cons_eq (g : Grid) (pieces : List Piece) (i : ℕ) (rest : List ℕ) :
    find_best_outcome_recursive_st g pieces (i :: rest) =
      (find_all_possible_placements g (pieces.getD i default).shape).foldl
        (recStStep pieces i rest) (((⊥ : WithBot ℤ), []), g, pieces) := rfl

theorem seq_st_eq (g : Grid) (pieces : List Piece) :
    find_best_move_sequence_st g pieces =
      (((permsLex (unplaced_indices pieces)).foldl seqStStep
          (((⊥ : WithBot ℤ), none), g, pieces)).1.2,
        ((permsLex (unplaced_indices pieces)).foldl seqStStep
          (((⊥ : WithBot ℤ), none), g, pieces)).2) := rfl

theorem seq_pure_eq (g : Grid) (pieces : List Piece) :
    find_best_move_sequence g pieces =
      ((permsLex (unplaced_indices pieces)).foldl (seqPureStep g pieces)
        ((⊥ : WithBot ℤ), none)).2 := rfl

theorem rec_st_frame (pieces : List Piece) :
    ∀ (order : List ℕ) (g : Grid),
      find_best_outcome_recursive_st g pieces order =
        (find_best_outcome_recursive g pieces order, g, pieces)
  | [], _ => rfl
  | i :: rest, g => by
    rw [rec_st_cons_eq, rec_cons_eq]
    suffices h : ∀ (L : List (ℤ × ℤ)) (s : WithBot ℤ × List Move),
        L.foldl (recStStep pieces i rest) (s, g, pieces)
          = (L.foldl (fun b rc => if b.1 < recBranchScore g pieces i rest rc
              then (recBranchScore g pieces i rest rc, recBranchSeq g pieces i rest rc) else b)
              s, g, pieces) by
      exact h _ _
    intro L
    induction L with
    | nil => intro s; rfl
    | cons rc L ih =>
      intro s
      rw [List.foldl_cons, List.foldl_cons]
      have hst : recStStep pieces i rest (s, g, pieces) rc =
          ((if s.1 < recBranchScore g pieces i rest rc
            then (recBranchScore g pieces i rest rc, recBranchSeq g pieces i rest rc) else s),
            g, pieces) := by
        simp only [recStStep, recBranchScore, recBranchSeq]
        rw [rec_st_frame pieces rest
          (find_and_clear_lines (place_piece g (pieces.getD i default).shape rc.1 rc.2)).2]
      rw [hst, ih]

theorem seq_fold_frame (g : Grid) (pieces : List Piece) :
    ∀ (P : List (List ℕ)) (s : WithBot ℤ × Option (List Move)),
      P.foldl seqStStep (s, g, pieces) = (P.foldl (seqPureStep g pieces) s, g, pieces)
  | [], _ => rfl
  | ord :: P, s => by
    rw [List.foldl_cons, List.foldl_cons]
    have hst : seqStStep (s, g, pieces) ord = (seqPureStep g pieces s ord, g, pieces) := by
      simp only [seqStStep, seqPureStep]
      rw [rec_st_frame pieces ord g]
    rw [hst]
    exact seq_fold_frame g pieces P _

/-- C10: the search never changes the caller-visible state of the `grid`
and `pieces` objects: in the state-passing embedding that mirrors the
source's object flow (all placements and clears hit a copy of the working
grid), the final states returned alongside the result are exactly the
inputs. -/
theorem claim_C10_caller_state (g : Grid) (pieces : List Piece) :
    find_best_move_sequence_st g pieces = (find_best_move_sequence g pieces, g, pieces) := by
  rw [seq_st_eq, seq_pure_eq, seq_fold_frame]

/-! ### Pointwise description of grid updates -/

theorem getD_set_list {α : Type _} :
    ∀ (l : List α) (i : ℕ) (v : α) (j : ℕ) (d : α),
      (l.set i v).getD j d = if j = i ∧ i < l.length then v else l.getD j d
  | [], i, v, j, d => by simp
  | x :: xs, 0, v, 0, d => by simp
  | x :: xs, 0, v, j + 1, d => by simp
  | x :: xs, i + 1, v, 0, d => by simp
  | x :: xs, i + 1, v, j + 1, d => by
    simp only [List.set_cons_succ, List.getD_cons_succ, List.length_cons]
    rw [getD_set_list xs i v j d]
    by_cases hji : j = i ∧ i < xs.length
    · rw [if_pos hji, if_pos ⟨by omega, by omega⟩]
    · rw [if_neg hji, if_neg (by omega)]

theorem row_length (g : Grid) (hWF : GridWF g) (r : ℕ) (hr : r < GRID_HEIGHT) :
    (g.getD r []).length = GRID_WIDTH := by
  have hlen : r < g.length := by rw [hWF.1]; exact hr
  rw [List.getD_eq_getElem g [] hlen]
  exact hWF.2 _ (List.getElem_mem hlen)

theorem getCellN_setCellN (g : Grid) (hWF : GridWF g) (a b : ℕ)
    (ha : a < GRID_HEIGHT) (hb : b < GRID_WIDTH) (v : Cell) (x y : ℕ) :
    getCellN (setCellN g a b v) x y = if x = a ∧ y = b then v else getCellN g x y := by
  rw [getCellN, setCellN, getD_set_list]
  by_cases hxa : x = a
  · subst hxa
    rw [if_pos ⟨rfl, by rw [hWF.1]; exact ha⟩, getD_set_list, row_length g hWF x ha]
    by_cases hyb : y = b
    · rw [if_pos ⟨hyb, hb⟩, if_pos ⟨rfl, hyb⟩]
    · rw [if_neg (fun hc => hyb hc.1), if_neg (fun hc => hyb hc.2), getCellN]
  · rw [if_neg (fun hc => hxa hc.1), if_neg (fun hc => hxa hc.1), getCellN]

theorem GridWF_setCellN (g : Grid) (hWF : GridWF g) (a b : ℕ) (v : Cell)
    (ha : a < GRID_HEIGHT) : GridWF (setCellN g a b v) := by
  constructor
  · rw [setCellN, List.length_set]; exact hWF.1
  · intro row hrow
    rcases List.mem_or_eq_of_mem_set hrow with h | h
    · exact hWF.2 row h
    · rw [h, List.length_set]; exact row_length g hWF a ha

theorem getD_replicate_false : ∀ (n j : ℕ), (List.replicate n false).getD j false = false
  | 0, 0 => rfl
  | 0, _ + 1 => rfl
  | _ + 1, 0 => rfl
  | n + 1, j + 1 => getD_replicate_false n j

theorem GridWF_set_row (g : Grid) (hWF : GridWF g) (a : ℕ) :
    GridWF (g.set a (List.replicate GRID_WIDTH false)) := by
  constructor
  · rw [List.length_set]; exact hWF.1
  · intro row hrow
    rcases List.mem_or_eq_of_mem_set hrow with h | h
    · exact hWF.2 row h
    · rw [h, List.length_replicate]

theorem getCellN_rows_fold :
    ∀ (rl : List ℕ) (g : Grid), GridWF g → (∀ a ∈ rl, a < GRID_HEIGHT) → ∀ (x y : ℕ),
      getCellN (rl.foldl (fun gg r => gg.set r (List.replicate GRID_WIDTH false)) g) x y
        = if x ∈ rl then false else getCellN g x y
  | [], g, _, _, x, y => by simp
  | a :: rl, g, hWF, hmem, x, y => by
    rw [List.foldl_cons,
      getCellN_rows_fold rl _ (GridWF_set_row g hWF a)
        (fun b hb => hmem b (List.mem_cons_of_mem _ hb)) x y]
    have hset : getCellN (g.set a (List.replicate GRID_WIDTH false)) x y
        = if x = a then false else getCellN g x y := by
      rw [getCellN, getD_set_list]
      by_cases hxa : x = a
      · rw [if_pos ⟨hxa, by rw [hWF.1]; exact hmem a (List.mem_cons_self _ _)⟩, if_pos hxa,
          getD_replicate_false]
      · rw [if_neg (fun hc => hxa hc.1), if_neg hxa, getCellN]
    rw [hset]
    by_cases hx : x ∈ rl
    · rw [if_pos hx, if_pos (List.mem_cons_of_mem _ hx)]
    · rw [if_neg hx]
      by_cases hxa : x = a
      · rw [if_pos hxa, if_pos (by rw [hxa]; exact List.mem_cons_self _ _)]
      · rw [if_neg hxa, if_neg (by
          intro hc
          rcases List.mem_cons.mp hc with h | h
          · exact hxa h
          · exact hx h)]

theorem GridWF_rows_fold :
    ∀ (rl : List ℕ) (g : Grid), GridWF g →
      GridWF (rl.foldl (fun gg r => gg.set r (List.replicate GRID_WIDTH false)) g)
  | [], _, hWF => hWF
  | a :: rl, g, hWF => by
    rw [List.foldl_cons]
    exact GridWF_rows_fold rl _ (GridWF_set_row g hWF a)

theorem getCellN_col_fold :
    ∀ (rs : List ℕ) (g : Grid) (c : ℕ), GridWF g → (∀ a ∈ rs, a < GRID_HEIGHT) →
      c < GRID_WIDTH → ∀ (x y : ℕ),
      getCellN (rs.foldl (fun gg2 r => setCellN gg2 r c false) g) x y
        = if x ∈ rs ∧ y = c then false else getCellN g x y
  | [], g, c, _, _, _, x, y => by simp
  | a :: rs, g, c, hWF, hmem, hc, x, y => by
    rw [List.foldl_cons,
      getCellN_col_fold rs _ c (GridWF_setCellN g hWF a c false (hmem a (List.mem_cons_self _ _)))
        (fun b hb => hmem b (List.mem_cons_of_mem _ hb)) hc x y,
      getCellN_setCellN g hWF a c (hmem a (List.mem_cons_self _ _)) hc false x y]
    by_cases hx : x ∈ rs ∧ y = c
    · rw [if_pos hx, if_pos ⟨List.mem_cons_of_mem _ hx.1, hx.2⟩]
    · rw [if_neg hx]
      by_cases hxa : x = a ∧ y = c
      · rw [if_pos hxa, if_pos ⟨by rw [hxa.1]; exact List.mem_cons_self _ _, hxa.2⟩]
      · rw [if_neg hxa, if_neg (by
          intro hcn
          rcases List.mem_cons.mp hcn.1 with h | h
          · exact hxa ⟨h, hcn.2⟩
          · exact hx ⟨h, hcn.2⟩)]

theorem GridWF_col_fold :
    ∀ (rs : List ℕ) (g : Grid) (c : ℕ), GridWF g → (∀ a ∈ rs, a < GRID_HEIGHT) →
      GridWF (rs.foldl (fun gg2 r => setCellN gg2 r c false) g)
  | [], _, _, hWF, _ => hWF
  | a :: rs, g, c, hWF, hmem => by
    rw [List.foldl_cons]
    exact GridWF_col_fold rs _ c
      (GridWF_setCellN g hWF a c false (hmem a (List.mem_cons_self _ _)))
      (fun b hb => hmem b (List.mem_cons_of_mem _ hb))

theorem getCellN_cols_fold :
    ∀ (cl : List ℕ) (g : Grid), GridWF g → (∀ a ∈ cl, a < GRID_WIDTH) →
      ∀ (x y : ℕ), x < GRID_HEIGHT →
      getCellN (cl.foldl (fun gg c =>
        (List.range GRID_HEIGHT).foldl (fun gg2 r => setCellN gg2 r c false) gg) g) x y
        = if y ∈ cl then false else getCellN g x y
  | [], g, _, _, x, y, _ => by simp
  | c :: cl, g, hWF, hmem, x, y, hx => by
    have hWF' : GridWF ((List.range GRID_HEIGHT).foldl (fun gg2 r => setCellN gg2 r c false) g) :=
      GridWF_col_fold _ g c hWF (fun a ha => List.mem_range.mp ha)
    rw [List.foldl_cons,
      getCellN_cols_fold cl _ hWF' (fun b hb => hmem b (List.mem_cons_of_mem _ hb)) x y hx,
      getCellN_col_fold _ g c hWF (fun a ha => List.mem_range.mp ha)
        (hmem c (List.mem_cons_self _ _)) x y]
    by_cases hyc : y ∈ cl
    · rw [if_pos hyc, if_pos (List.mem_cons_of_mem _ hyc)]
    · rw [if_neg hyc]
      by_cases hyy : y = c
      · rw [if_pos ⟨List.mem_range.mpr hx, hyy⟩, if_pos (by rw [hyy]; exact List.mem_cons_self _ _)]
      · rw [if_neg (fun hc2 => hyy hc2.2), if_neg (by
          intro hc2
          rcases List.mem_cons.mp hc2 with h | h
          · exact hyy h
          · exact hyc h)]

theorem GridWF_cols_fold :
    ∀ (cl : List ℕ) (g : Grid), GridWF g →
      GridWF (cl.foldl (fun gg c =>
        (List.range GRID_HEIGHT).foldl (fun gg2 r => setCellN gg2 r c false) gg) g)
  | [], _, hWF => hWF
  | c :: cl, g, hWF => by
    rw [List.foldl_cons]
    exact GridWF_cols_fold cl _
      (GridWF_col_fold _ g c hWF (fun a ha => List.mem_range.mp ha))

theorem mem_rows_to_clear_lt (g : Grid) (a : ℕ) (h : a ∈ rows_to_clear g) :
    a < GRID_HEIGHT :=
  List.mem_range.mp (List.mem_filter.mp h).1

theorem mem_cols_to_clear_lt (g : Grid) (a : ℕ) (h : a ∈ cols_to_clear g) :
    a < GRID_WIDTH :=
  List.mem_range.mp (List.mem_filter.mp h).1

theorem find_and_clear_count (g : Grid) :
    (find_and_clear_lines g).1 = (rows_to_clear g).length + (cols_to_clear g).length := rfl

theorem getCellN_find_and_clear (g : Grid) (hWF : GridWF g) (x y : ℕ)
    (hx : x < GRID_HEIGHT) :
    getCellN (find_and_clear_lines g).2 x y =
      if x ∈ rows_to_clear g ∨ y ∈ cols_to_clear g then false else getCellN g x y := by
  show getCellN ((cols_to_clear g).foldl _ ((rows_to_clear g).foldl _ g)) x y = _
  rw [getCellN_cols_fold _ _ (GridWF_rows_fold _ g hWF) (mem_cols_to_clear_lt g) x y hx,
    getCellN_rows_fold _ g hWF (mem_rows_to_clear_lt g) x y]
  by_cases hyc : y ∈ cols_to_clear g
  · rw [if_pos hyc, if_pos (Or.inr hyc)]
  · rw [if_neg hyc]
    by_cases hxr : x ∈ rows_to_clear g
    · rw [if_pos hxr, if_pos (Or.inl hxr)]
    · rw [if_neg hxr, if_neg (by
        intro hc
        rcases hc with h | h
        · exact hxr h
        · exact hyc h)]

theorem GridWF_find_and_clear (g : Grid) (hWF : GridWF g) :
    GridWF (find_and_clear_lines g).2 :=
  GridWF_cols_fold _ _ (GridWF_rows_fold _ g hWF)

theorem clear_count_zero (g : Grid) (h : (find_and_clear_lines g).1 = 0) :
    (find_and_clear_lines g).2 = g := by
  rw [find_and_clear_count] at h
  have hr : rows_to_clear g = [] := List.length_eq_zero.mp (by omega)
  have hc : cols_to_clear g = [] := List.length_eq_zero.mp (by omega)
  show ((cols_to_clear g).foldl _ ((rows_to_clear g).foldl _ g)) = g
  rw [hr, hc]
  rfl

theorem mem_rows_to_clear (g : Grid) (hWF : GridWF g) (r : ℕ) (hr : r < GRID_HEIGHT)
    (h : ∀ c, c < GRID_WIDTH → getCellN g r c = true) : r ∈ rows_to_clear g := by
  rw [rows_to_clear, List.mem_filter]
  refine ⟨List.mem_range.mpr hr, ?_⟩
  rw [List.all_eq_true]
  intro cell hcell
  obtain ⟨k, hk, hko⟩ := List.mem_iff_getElem.mp hcell
  have hk8 : k < GRID_WIDTH := by
    rw [row_length g hWF r hr] at hk
    exact hk
  have : getCellN g r k = true := h k hk8
  rw [getCellN, List.getD_eq_getElem (g.getD r []) false (by rw [row_length g hWF r hr]; exact hk8)]
    at this
  rw [← hko, this]
  rfl

/-! ### Arithmetic of cell indicators -/

theorem grid_height_int : ((GRID_HEIGHT : ℕ) : ℤ) = 8 := rfl

theorem grid_width_int : ((GRID_WIDTH : ℕ) : ℤ) = 8 := rfl

theorem cellB_nonneg (g : Grid) (p : ℤ × ℤ) : 0 ≤ cellB g p := by
  rw [cellB]
  split <;> norm_num

theorem cellB_le_one (g : Grid) (p : ℤ × ℤ) : cellB g p ≤ 1 := by
  rw [cellB]
  split <;> norm_num

theorem mem_zbox (p : ℤ × ℤ) : p ∈ zbox ↔ 0 ≤ p.1 ∧ p.1 ≤ 7 ∧ 0 ≤ p.2 ∧ p.2 ≤ 7 := by
  rw [zbox, Finset.mem_product, Finset.mem_Icc, Finset.mem_Icc]
  tauto

theorem cellB_eq_zero_of_not_mem (g : Grid) (p : ℤ × ℤ) (hp : p ∉ zbox) : cellB g p = 0 := by
  rw [cellB, if_neg]
  intro hc
  refine hp ((mem_zbox p).mpr ⟨hc.1, ?_, hc.2.2.1, ?_⟩)
  · have h2 := hc.2.1
    rw [grid_height_int] at h2
    omega
  · have h2 := hc.2.2.2.1
    rw [grid_width_int] at h2
    omega

theorem cellB_eq_ite (g : Grid) (p : ℤ × ℤ) (hp : p ∈ zbox) :
    cellB g p = if getCellN g p.1.toNat p.2.toNat = true then 1 else 0 := by
  rw [mem_zbox] at hp
  rw [cellB]
  refine if_congr ⟨fun h => h.2.2.2.2, fun h => ⟨hp.1, ?_, hp.2.2.1, ?_, h⟩⟩ rfl rfl
  · rw [grid_height_int]
    omega
  · rw [grid_width_int]
    omega

theorem neighborSum_expand (g : Grid) (p : ℤ × ℤ) :
    neighborSum g p = cellB g (p.1 + -1, p.2 + 0) + (cellB g (p.1 + 1, p.2 + 0) +
      (cellB g (p.1 + 0, p.2 + -1) + (cellB g (p.1 + 0, p.2 + 1) + 0))) := rfl

theorem neighborSum_nonneg (g : Grid) (p : ℤ × ℤ) : 0 ≤ neighborSum g p := by
  rw [neighborSum_expand]
  have h1 := cellB_nonneg g (p.1 + -1, p.2 + 0)
  have h2 := cellB_nonneg g (p.1 + 1, p.2 + 0)
  have h3 := cellB_nonneg g (p.1 + 0, p.2 + -1)
  have h4 := cellB_nonneg g (p.1 + 0, p.2 + 1)
  linarith

theorem neighborSum_le_four (g : Grid) (p : ℤ × ℤ) : neighborSum g p ≤ 4 := by
  rw [neighborSum_expand]
  have h1 := cellB_le_one g (p.1 + -1, p.2 + 0)
  have h2 := cellB_le_one g (p.1 + 1, p.2 + 0)
  have h3 := cellB_le_one g (p.1 + 0, p.2 + -1)
  have h4 := cellB_le_one g (p.1 + 0, p.2 + 1)
  linarith

theorem neighborSum_mono (g g' : Grid) (h : ∀ q, cellB g q ≤ cellB g' q) (p : ℤ × ℤ) :
    neighborSum g p ≤ neighborSum g' p := by
  rw [neighborSum_expand, neighborSum_expand]
  have h1 := h (p.1 + -1, p.2 + 0)
  have h2 := h (p.1 + 1, p.2 + 0)
  have h3 := h (p.1 + 0, p.2 + -1)
  have h4 := h (p.1 + 0, p.2 + 1)
  linarith

theorem filledCountSpec_nonneg (g : Grid) : 0 ≤ filledCountSpec g :=
  Finset.sum_nonneg (fun p _ => cellB_nonneg g p)

theorem filledCountSpec_mono (g g' : Grid) (h : ∀ p, cellB g p ≤ cellB g' p) :
    filledCountSpec g ≤ filledCountSpec g' :=
  Finset.sum_le_sum (fun p _ => h p)

theorem clusterScoreSpec_mono (g g' : Grid) (h : ∀ p, cellB g p ≤ cellB g' p) :
    clusterScoreSpec g ≤ clusterScoreSpec g' :=
  Finset.sum_le_sum (fun p _ => mul_le_mul (h p) (neighborSum_mono _ _ h p)
    (neighborSum_nonneg _ _) (le_trans (cellB_nonneg _ _) (h p)))

theorem clusterScoreSpec_zero_of_empty (g : Grid) (h : filledCountSpec g = 0) :
    clusterScoreSpec g = 0 := by
  have hz : ∀ p ∈ zbox, cellB g p = 0 :=
    (Finset.sum_eq_zero_iff_of_nonneg (fun q _ => cellB_nonneg g q)).mp h
  exact Finset.sum_eq_zero (fun p hp => by rw [hz p hp, zero_mul])

theorem evaluate_board_ge (g : Grid) :
    -10 * filledCountSpec g + 20 * clusterScoreSpec g ≤ evaluate_board g 0 := by
  rw [evaluate_board_formula]
  by_cases h : filledCountSpec g = 0
  · rw [if_pos h, h, clusterScoreSpec_zero_of_empty g h]
    norm_num
  · rw [if_neg h]
    have h0 : (2000 : ℤ) * 0 ^ 2 - 10 * filledCountSpec g + 20 * clusterScoreSpec g
        = -10 * filledCountSpec g + 20 * clusterScoreSpec g := by ring
    rw [h0]

theorem filledCountSpec_pos (g : Grid) (r c : ℕ) (hr : r < GRID_HEIGHT)
    (hc : c < GRID_WIDTH) (hcell : getCellN g r c = true) : 0 < filledCountSpec g := by
  have hr' : r < 8 := hr
  have hc' : c < 8 := hc
  have hmem : ((r : ℤ), (c : ℤ)) ∈ zbox := by
    rw [mem_zbox]
    refine ⟨by positivity, by omega, by positivity, by omega⟩
  have h1 : cellB g ((r : ℤ), (c : ℤ)) = 1 := by
    rw [cellB_coe g r c hr' hc', if_pos hcell]
  calc (0 : ℤ) < 1 := one_pos
    _ = cellB g ((r : ℤ), (c : ℤ)) := h1.symm
    _ ≤ filledCountSpec g := Finset.single_le_sum (fun q _ => cellB_nonneg g q) hmem

theorem sum_shift_le (δ : ℤ × ℤ → ℤ) (hnn : ∀ p, 0 ≤ δ p)
    (hz : ∀ p, p ∉ zbox → δ p = 0) (d : ℤ × ℤ)
    (hd1 : -1 ≤ d.1 ∧ d.1 ≤ 1) (hd2 : -1 ≤ d.2 ∧ d.2 ≤ 1) :
    ∑ p ∈ zbox, δ (p.1 + d.1, p.2 + d.2) ≤ ∑ p ∈ zbox, δ p := by
  have hinj : ∀ p1 ∈ zbox, ∀ p2 ∈ zbox,
      ((p1.1 + d.1, p1.2 + d.2) : ℤ × ℤ) = (p2.1 + d.1, p2.2 + d.2) → p1 = p2 := by
    intro p1 _ p2 _ h
    have h1 := (Prod.ext_iff.mp h).1
    have h2 := (Prod.ext_iff.mp h).2
    exact Prod.ext (by omega) (by omega)
  rw [show ∑ p ∈ zbox, δ (p.1 + d.1, p.2 + d.2)
      = ∑ q ∈ zbox.image (fun p => (p.1 + d.1, p.2 + d.2)), δ q from (Finset.sum_image hinj).symm]
  have hsubz : zbox ⊆ Finset.Icc (-1 : ℤ) 8 ×ˢ Finset.Icc (-1 : ℤ) 8 := by
    intro q hq
    rw [mem_zbox] at hq
    rw [Finset.mem_product, Finset.mem_Icc, Finset.mem_Icc]
    omega
  refine le_trans (Finset.sum_le_sum_of_subset_of_nonneg ?_ (fun q _ _ => hnn q))
    (le_of_eq (Finset.sum_subset hsubz (fun x _ hx => hz x hx)).symm)
  intro q hq
  obtain ⟨p, hp, rfl⟩ := Finset.mem_image.mp hq
  rw [mem_zbox] at hp
  rw [Finset.mem_product, Finset.mem_Icc, Finset.mem_Icc]
  constructor
  · constructor <;> omega
  · constructor <;> omega

theorem clusterScoreSpec_diff_le (G G' : Grid) (hle : ∀ p, cellB G' p ≤ cellB G p) :
    clusterScoreSpec G - clusterScoreSpec G'
      ≤ 8 * (filledCountSpec G - filledCountSpec G') := by
  have hnn : ∀ p, 0 ≤ cellB G p - cellB G' p := fun p => sub_nonneg.mpr (hle p)
  have hz : ∀ p, p ∉ zbox → cellB G p - cellB G' p = 0 := fun p hp => by
    rw [cellB_eq_zero_of_not_mem G p hp, cellB_eq_zero_of_not_mem G' p hp, sub_self]
  have hterm : ∀ p ∈ zbox,
      cellB G p * neighborSum G p - cellB G' p * neighborSum G' p
        ≤ 4 * (cellB G p - cellB G' p) +
          ((cellB G (p.1 + -1, p.2 + 0) - cellB G' (p.1 + -1, p.2 + 0)) +
           ((cellB G (p.1 + 1, p.2 + 0) - cellB G' (p.1 + 1, p.2 + 0)) +
            ((cellB G (p.1 + 0, p.2 + -1) - cellB G' (p.1 + 0, p.2 + -1)) +
             (cellB G (p.1 + 0, p.2 + 1) - cellB G' (p.1 + 0, p.2 + 1))))) := by
    intro p _
    have hNdiff : neighborSum G p - neighborSum G' p
        = (cellB G (p.1 + -1, p.2 + 0) - cellB G' (p.1 + -1, p.2 + 0)) +
          ((cellB G (p.1 + 1, p.2 + 0) - cellB G' (p.1 + 1, p.2 + 0)) +
           ((cellB G (p.1 + 0, p.2 + -1) - cellB G' (p.1 + 0, p.2 + -1)) +
            (cellB G (p.1 + 0, p.2 + 1) - cellB G' (p.1 + 0, p.2 + 1)))) := by
      rw [neighborSum_expand, neighborSum_expand]
      ring
    have h1 : cellB G' p ≤ cellB G p := hle p
    have h3 := cellB_le_one G' p
    have h2 := cellB_nonneg G' p
    have h4 := neighborSum_le_four G p
    have h6 : neighborSum G' p ≤ neighborSum G p := neighborSum_mono _ _ hle p
    have e1 : (cellB G p - cellB G' p) * neighborSum G p
        ≤ (cellB G p - cellB G' p) * 4 :=
      mul_le_mul_of_nonneg_left h4 (sub_nonneg.mpr h1)
    have e2 : cellB G' p * (neighborSum G p - neighborSum G' p)
        ≤ 1 * (neighborSum G p - neighborSum G' p) :=
      mul_le_mul_of_nonneg_right h3 (sub_nonneg.mpr h6)
    calc cellB G p * neighborSum G p - cellB G' p * neighborSum G' p
        = (cellB G p - cellB G' p) * neighborSum G p
            + cellB G' p * (neighborSum G p - neighborSum G' p) := by ring
      _ ≤ (cellB G p - cellB G' p) * 4 + 1 * (neighborSum G p - neighborSum G' p) :=
          add_le_add e1 e2
      _ = 4 * (cellB G p - cellB G' p) + (neighborSum G p - neighborSum G' p) := by ring
      _ = _ := by rw [hNdiff]
  have hs1 := sum_shift_le (fun p => cellB G p - cellB G' p) hnn hz ((-1 : ℤ), (0 : ℤ))
    ⟨by norm_num, by norm_num⟩ ⟨by norm_num, by norm_num⟩
  have hs2 := sum_shift_le (fun p => cellB G p - cellB G' p) hnn hz ((1 : ℤ), (0 : ℤ))
    ⟨by norm_num, by norm_num⟩ ⟨by norm_num, by norm_num⟩
  have hs3 := sum_shift_le (fun p => cellB G p - cellB G' p) hnn hz ((0 : ℤ), (-1 : ℤ))
    ⟨by norm_num, by norm_num⟩ ⟨by norm_num, by norm_num⟩
  have hs4 := sum_shift_le (fun p => cellB G p - cellB G' p) hnn hz ((0 : ℤ), (1 : ℤ))
    ⟨by norm_num, by norm_num⟩ ⟨by norm_num, by norm_num⟩
  have hdsum : filledCountSpec G - filledCountSpec G'
      = ∑ p ∈ zbox, (cellB G p - cellB G' p) := (Finset.sum_sub_distrib).symm
  calc clusterScoreSpec G - clusterScoreSpec G'
      = ∑ p ∈ zbox, (cellB G p * neighborSum G p - cellB G' p * neighborSum G' p) :=
        (Finset.sum_sub_distrib).symm
    _ ≤ ∑ p ∈ zbox, (4 * (cellB G p - cellB G' p) +
          ((cellB G (p.1 + -1, p.2 + 0) - cellB G' (p.1 + -1, p.2 + 0)) +
           ((cellB G (p.1 + 1, p.2 + 0) - cellB G' (p.1 + 1, p.2 + 0)) +
            ((cellB G (p.1 + 0, p.2 + -1) - cellB G' (p.1 + 0, p.2 + -1)) +
             (cellB G (p.1 + 0, p.2 + 1) - cellB G' (p.1 + 0, p.2 + 1)))))) :=
        Finset.sum_le_sum hterm
    _ = 4 * (∑ p ∈ zbox, (cellB G p - cellB G' p)) +
          ((∑ p ∈ zbox, (cellB G (p.1 + -1, p.2 + 0) - cellB G' (p.1 + -1, p.2 + 0))) +
           ((∑ p ∈ zbox, (cellB G (p.1 + 1, p.2 + 0) - cellB G' (p.1 + 1, p.2 + 0))) +
            ((∑ p ∈ zbox, (cellB G (p.1 + 0, p.2 + -1) - cellB G' (p.1 + 0, p.2 + -1))) +
             (∑ p ∈ zbox, (cellB G (p.1 + 0, p.2 + 1) - cellB G' (p.1 + 0, p.2 + 1)))))) := by
        rw [Finset.sum_add_distrib, Finset.sum_add_distrib, Finset.sum_add_distrib,
          Finset.sum_add_distrib, ← Finset.mul_sum]
    _ ≤ 4 * (∑ p ∈ zbox, (cellB G p - cellB G' p)) +
          ((∑ p ∈ zbox, (cellB G p - cellB G' p)) +
           ((∑ p ∈ zbox, (cellB G p - cellB G' p)) +
            ((∑ p ∈ zbox, (cellB G p - cellB G' p)) +
             (∑ p ∈ zbox, (cellB G p - cellB G' p))))) := by
        refine add_le_add (le_refl _) (add_le_add hs1 (add_le_add hs2 (add_le_add hs3 hs4)))
    _ = 8 * (∑ p ∈ zbox, (cellB G p - cellB G' p)) := by ring
    _ = 8 * (filledCountSpec G - filledCountSpec G') := by rw [hdsum]

theorem sum_range_ite_mem (l : List ℕ) (n : ℕ) (hnd : l.Nodup) (hsub : ∀ a ∈ l, a < n) :
    ∑ r ∈ Finset.range n, (if r ∈ l then (1 : ℤ) else 0) = l.length := by
  have hfil : (Finset.range n).filter (fun r => r ∈ l) = l.toFinset := by
    ext x
    simp only [Finset.mem_filter, Finset.mem_range, List.mem_toFinset]
    exact ⟨fun h => h.2, fun h => ⟨hsub x h, h⟩⟩
  rw [Finset.sum_boole, hfil, List.toFinset_card_of_nodup hnd]

theorem rows_to_clear_nodup (g : Grid) : (rows_to_clear g).Nodup :=
  (List.nodup_range _).filter _

theorem cols_to_clear_nodup (g : Grid) : (cols_to_clear g).Nodup :=
  (List.nodup_range _).filter _

theorem sum_row_indicator (B : Grid) :
    ∑ p ∈ zbox, (if p.1.toNat ∈ rows_to_clear B then (1 : ℤ) else 0)
      = 8 * ((rows_to_clear B).length : ℤ) := by
  rw [zbox_sum (fun p => if p.1.toNat ∈ rows_to_clear B then (1 : ℤ) else 0)]
  have ht : ∀ r : ℕ, ((r : ℤ)).toNat = r := Int.toNat_natCast
  simp only [ht]
  rw [show (∑ r ∈ Finset.range 8, ∑ _c ∈ Finset.range 8,
        (if r ∈ rows_to_clear B then (1 : ℤ) else 0))
      = ∑ r ∈ Finset.range 8, 8 * (if r ∈ rows_to_clear B then (1 : ℤ) else 0) from
    Finset.sum_congr rfl (fun r _ => by
      rw [Finset.sum_const, Finset.card_range, nsmul_eq_mul]
      norm_num)]
  rw [← Finset.mul_sum,
    sum_range_ite_mem (rows_to_clear B) 8 (rows_to_clear_nodup B)
      (fun a ha => mem_rows_to_clear_lt B a ha)]

theorem sum_col_indicator (B : Grid) :
    ∑ p ∈ zbox, (if p.2.toNat ∈ cols_to_clear B then (1 : ℤ) else 0)
      = 8 * ((cols_to_clear B).length : ℤ) := by
  rw [zbox_sum (fun p => if p.2.toNat ∈ cols_to_clear B then (1 : ℤ) else 0)]
  have ht : ∀ r : ℕ, ((r : ℤ)).toNat = r := Int.toNat_natCast
  simp only [ht]
  rw [show (∑ _r ∈ Finset.range 8, ∑ c ∈ Finset.range 8,
        (if c ∈ cols_to_clear B then (1 : ℤ) else 0))
      = ∑ _r ∈ Finset.range 8, ((cols_to_clear B).length : ℤ) from
    Finset.sum_congr rfl (fun r _ =>
      sum_range_ite_mem (cols_to_clear B) 8 (cols_to_clear_nodup B)
        (fun a ha => mem_cols_to_clear_lt B a ha))]
  rw [Finset.sum_const, Finset.card_range, nsmul_eq_mul]
  norm_num

theorem clear_removed_le (B : Grid) (hWF : GridWF B) :
    filledCountSpec B - filledCountSpec (find_and_clear_lines B).2
      ≤ 8 * (((find_and_clear_lines B).1 : ℕ) : ℤ) := by
  have hpt : ∀ p ∈ zbox,
      cellB B p - cellB (find_and_clear_lines B).2 p
        ≤ (if p.1.toNat ∈ rows_to_clear B then (1 : ℤ) else 0)
          + (if p.2.toNat ∈ cols_to_clear B then (1 : ℤ) else 0) := by
    intro p hp
    have hx : p.1.toNat < GRID_HEIGHT := by
      rw [mem_zbox] at hp
      show p.1.toNat < 8
      omega
    rw [cellB_eq_ite B p hp, cellB_eq_ite _ p hp, getCellN_find_and_clear B hWF _ _ hx]
    by_cases hrem : p.1.toNat ∈ rows_to_clear B ∨ p.2.toNat ∈ cols_to_clear B
    · rw [if_pos hrem]
      have a1 : (if getCellN B p.1.toNat p.2.toNat = true then (1 : ℤ) else 0) ≤ 1 := by
        split <;> norm_num
      have a2 : (if (false : Bool) = true then (1 : ℤ) else 0) = 0 := by norm_num
      have a3 : (1 : ℤ) ≤ (if p.1.toNat ∈ rows_to_clear B then (1 : ℤ) else 0)
          + (if p.2.toNat ∈ cols_to_clear B then (1 : ℤ) else 0) := by
        rcases hrem with h | h
        · have b2 : (0 : ℤ) ≤ (if p.2.toNat ∈ cols_to_clear B then (1 : ℤ) else 0) := by
            split <;> norm_num
          rw [if_pos h]
          linarith
        · have b1 : (0 : ℤ) ≤ (if p.1.toNat ∈ rows_to_clear B then (1 : ℤ) else 0) := by
            split <;> norm_num
          rw [if_pos h]
          linarith
      rw [a2]
      linarith
    · rw [if_neg hrem]
      have b1 : (0 : ℤ) ≤ (if p.1.toNat ∈ rows_to_clear B then (1 : ℤ) else 0) := by
        split <;> norm_num
      have b2 : (0 : ℤ) ≤ (if p.2.toNat ∈ cols_to_clear B then (1 : ℤ) else 0) := by
        split <;> norm_num
      linarith [sub_self (if getCellN B p.1.toNat p.2.toNat = true then (1 : ℤ) else 0)]
  calc filledCountSpec B - filledCountSpec (find_and_clear_lines B).2
      = ∑ p ∈ zbox, (cellB B p - cellB (find_and_clear_lines B).2 p) :=
        (Finset.sum_sub_distrib).symm
    _ ≤ ∑ p ∈ zbox, ((if p.1.toNat ∈ rows_to_clear B then (1 : ℤ) else 0)
          + (if p.2.toNat ∈ cols_to_clear B then (1 : ℤ) else 0)) := Finset.sum_le_sum hpt
    _ = 8 * ((rows_to_clear B).length : ℤ) + 8 * ((cols_to_clear B).length : ℤ) := by
        rw [Finset.sum_add_distrib, sum_row_indicator, sum_col_indicator]
    _ = 8 * (((find_and_clear_lines B).1 : ℕ) : ℤ) := by
        rw [find_and_clear_count]
        push_cast
        ring

theorem place_single (g : Grid) (r c : ℤ) :
    place_piece g [((0 : ℤ), (0 : ℤ))] r c = setCellN g r.toNat c.toNat true := by
  show setCellN g (r + 0).toNat (c + 0).toNat true = _
  rw [add_zero, add_zero]

theorem valid_single_iff (g : Grid) (r c : ℤ) :
    is_valid_placement g [((0 : ℤ), (0 : ℤ))] r c = true ↔
      0 ≤ r ∧ r < 8 ∧ 0 ≤ c ∧ c < 8 ∧ getCellN g r.toNat c.toNat = false := by
  rw [is_valid_placement]
  simp only [List.all_cons, List.all_nil, Bool.and_true, add_zero, Bool.and_eq_true,
    decide_eq_true_eq, beq_iff_eq, grid_height_int, grid_width_int]
  tauto

theorem cellB_setCellN_true (g : Grid) (hWF : GridWF g) (a b : ℕ)
    (ha : a < GRID_HEIGHT) (hb : b < GRID_WIDTH) (p : ℤ × ℤ) :
    cellB (setCellN g a b true) p = if p = ((a : ℤ), (b : ℤ)) then 1 else cellB g p := by
  by_cases hp : p = ((a : ℤ), (b : ℤ))
  · rw [if_pos hp, hp,
      cellB_coe (setCellN g a b true) a b ha hb,
      getCellN_setCellN g hWF a b ha hb true a b,
      if_pos (show a = a ∧ b = b from ⟨rfl, rfl⟩)]
    norm_num
  · rw [if_neg hp]
    by_cases hmem : p ∈ zbox
    · have hz := (mem_zbox p).mp hmem
      have hco : ¬(p.1.toNat = a ∧ p.2.toNat = b) := by
        intro hco
        exact hp (Prod.ext (by omega) (by omega))
      rw [cellB_eq_ite _ p hmem, cellB_eq_ite g p hmem,
        getCellN_setCellN g hWF a b ha hb true p.1.toNat p.2.toNat, if_neg hco]
    · rw [cellB_eq_zero_of_not_mem _ p hmem, cellB_eq_zero_of_not_mem g p hmem]

theorem cellB_le_setCellN_true (g : Grid) (hWF : GridWF g) (a b : ℕ)
    (ha : a < GRID_HEIGHT) (hb : b < GRID_WIDTH) (p : ℤ × ℤ) :
    cellB g p ≤ cellB (setCellN g a b true) p := by
  rw [cellB_setCellN_true g hWF a b ha hb p]
  by_cases hp : p = ((a : ℤ), (b : ℤ))
  · rw [if_pos hp]
    exact cellB_le_one g p
  · rw [if_neg hp]

theorem filledCountSpec_setCellN_true (g : Grid) (hWF : GridWF g) (a b : ℕ)
    (ha : a < GRID_HEIGHT) (hb : b < GRID_WIDTH) (hemp : getCellN g a b = false) :
    filledCountSpec (setCellN g a b true) = filledCountSpec g + 1 := by
  have ha' : a < 8 := ha
  have hb' : b < 8 := hb
  have hmem : ((a : ℤ), (b : ℤ)) ∈ zbox := by
    rw [mem_zbox]
    exact ⟨by positivity, by omega, by positivity, by omega⟩
  rw [filledCountSpec, filledCountSpec,
    show ∑ p ∈ zbox, cellB (setCellN g a b true) p
      = ∑ p ∈ zbox, (if p = ((a : ℤ), (b : ℤ)) then 1 else cellB g p) from
      Finset.sum_congr rfl (fun p _ => cellB_setCellN_true g hWF a b ha hb p),
    Finset.sum_eq_sum_diff_singleton_add hmem
      (fun p => if p = ((a : ℤ), (b : ℤ)) then (1 : ℤ) else cellB g p),
    Finset.sum_eq_sum_diff_singleton_add hmem (cellB g), if_pos rfl]
  have hx0 : cellB g ((a : ℤ), (b : ℤ)) = 0 := by
    rw [cellB_coe g a b ha' hb', if_neg (by rw [hemp]; exact Bool.noConfusion)]
  rw [hx0,
    show ∑ p ∈ zbox \ {((a : ℤ), (b : ℤ))},
        (if p = ((a : ℤ), (b : ℤ)) then (1 : ℤ) else cellB g p)
      = ∑ p ∈ zbox \ {((a : ℤ), (b : ℤ))}, cellB g p from
    Finset.sum_congr rfl (fun p hpm => by
      rw [if_neg (Finset.not_mem_singleton.mp (Finset.mem_sdiff.mp hpm).2)])]
  ring

theorem cellB_clear_le (B : Grid) (hWF : GridWF B) (p : ℤ × ℤ) :
    cellB (find_and_clear_lines B).2 p ≤ cellB B p := by
  by_cases hmem : p ∈ zbox
  · have hx : p.1.toNat < GRID_HEIGHT := by
      have hz := (mem_zbox p).mp hmem
      show p.1.toNat < 8
      omega
    rw [cellB_eq_ite _ p hmem, cellB_eq_ite B p hmem,
      getCellN_find_and_clear B hWF _ _ hx]
    by_cases hrem : p.1.toNat ∈ rows_to_clear B ∨ p.2.toNat ∈ cols_to_clear B
    · rw [if_pos hrem]
      have : (if (false : Bool) = true then (1 : ℤ) else 0) = 0 := by norm_num
      rw [this]
      split <;> norm_num
    · rw [if_neg hrem]
  · rw [cellB_eq_zero_of_not_mem _ p hmem, cellB_eq_zero_of_not_mem B p hmem]

/-! ### The line-clear dominance comparison (C2) -/

theorem recBranchScore_nil (g : Grid) (pieces : List Piece) (i : ℕ) (rn cn : ℤ) :
    recBranchScore g pieces i [] (rn, cn) =
      ((((find_and_clear_lines (place_piece g (pieces.getD i default).shape rn cn)).1 : ℤ) ^ 2
          * WEIGHT_LINES_CLEARED
        + evaluate_board
            (find_and_clear_lines (place_piece g (pieces.getD i default).shape rn cn)).2 0
        : ℤ) : WithBot ℤ) := by
  simp only [recBranchScore, find_best_outcome_recursive]
  rw [← WithBot.coe_add]

theorem recBranchSeq_nil (g : Grid) (pieces : List Piece) (i : ℕ) (rc : ℤ × ℤ) :
    recBranchSeq g pieces i [] rc = [(i, rc.1, rc.2)] := by
  simp only [recBranchSeq, find_best_outcome_recursive]

theorem c2_branch_lt (g : Grid) (pieces : List Piece) (i : ℕ)
    (hWF : GridWF g) (r c0 : ℕ) (hr : r < GRID_HEIGHT) (hc0 : c0 < GRID_WIDTH)
    (hshape : (pieces.getD i default).shape = [((0 : ℤ), (0 : ℤ))])
    (hempty : getCellN g r c0 = false)
    (hrow : ∀ c, c < GRID_WIDTH → c ≠ c0 → getCellN g r c = true)
    (rn cn : ℤ)
    (hvalid : is_valid_placement g [((0 : ℤ), (0 : ℤ))] rn cn = true)
    (hk0 : (find_and_clear_lines (place_piece g [((0 : ℤ), (0 : ℤ))] rn cn)).1 = 0) :
    recBranchScore g pieces i [] (rn, cn) < recBranchScore g pieces i [] ((r : ℤ), (c0 : ℤ)) := by
  have hr' : r < 8 := hr
  have hc0' : c0 < 8 := hc0
  rw [recBranchScore_nil, recBranchScore_nil, hshape, WithBot.coe_lt_coe]
  obtain ⟨h0r, h8r, h0c, h8c, hempn⟩ := (valid_single_iff g rn cn).mp hvalid
  -- the non-clearing branch
  have hGn : (find_and_clear_lines (place_piece g [((0 : ℤ), (0 : ℤ))] rn cn)).2
      = place_piece g [((0 : ℤ), (0 : ℤ))] rn cn := clear_count_zero _ hk0
  have hBn' : place_piece g [((0 : ℤ), (0 : ℤ))] rn cn
      = setCellN g rn.toNat cn.toNat true := place_single g rn cn
  have hxr : rn.toNat < GRID_HEIGHT := by show rn.toNat < 8; omega
  have hxc : cn.toNat < GRID_WIDTH := by show cn.toNat < 8; omega
  have hfcn : filledCountSpec (place_piece g [((0 : ℤ), (0 : ℤ))] rn cn)
      = filledCountSpec g + 1 := by
    rw [hBn']
    exact filledCountSpec_setCellN_true g hWF _ _ hxr hxc hempn
  have hmono_n : ∀ p, cellB g p ≤ cellB (place_piece g [((0 : ℤ), (0 : ℤ))] rn cn) p := by
    intro p
    rw [hBn']
    exact cellB_le_setCellN_true g hWF _ _ hxr hxc p
  have hcsn : clusterScoreSpec (place_piece g [((0 : ℤ), (0 : ℤ))] rn cn)
      ≤ clusterScoreSpec g + 8 := by
    have hd := clusterScoreSpec_diff_le (place_piece g [((0 : ℤ), (0 : ℤ))] rn cn) g hmono_n
    rw [hfcn] at hd
    linarith
  set cw : ℕ := if c0 = 0 then 1 else 0 with hcw
  have hcw8 : cw < GRID_WIDTH := by
    show cw < 8
    rw [hcw]
    split <;> omega
  have hcwne : cw ≠ c0 := by
    rw [hcw]
    split
    · omega
    · intro hco
      omega
  have hgcw : getCellN g r cw = true := hrow cw hcw8 hcwne
  have hbncw : getCellN (place_piece g [((0 : ℤ), (0 : ℤ))] rn cn) r cw = true := by
    rw [hBn', getCellN_setCellN g hWF _ _ hxr hxc true r cw]
    split
    · rfl
    · exact hgcw
  have hfcn_ne : filledCountSpec (place_piece g [((0 : ℤ), (0 : ℤ))] rn cn) ≠ 0 :=
    ne_of_gt (filledCountSpec_pos _ r cw hr hcw8 hbncw)
  have hevn : evaluate_board
      (find_and_clear_lines (place_piece g [((0 : ℤ), (0 : ℤ))] rn cn)).2 0
      = -10 * (filledCountSpec g + 1)
        + 20 * clusterScoreSpec (place_piece g [((0 : ℤ), (0 : ℤ))] rn cn) := by
    rw [hGn, evaluate_board_formula, if_neg hfcn_ne, hfcn]
    ring
  -- the clearing branch
  have hBc' : place_piece g [((0 : ℤ), (0 : ℤ))] (r : ℤ) (c0 : ℤ)
      = setCellN g r c0 true := by
    rw [place_single, Int.toNat_natCast, Int.toNat_natCast]
  have hWFc : GridWF (place_piece g [((0 : ℤ), (0 : ℤ))] (r : ℤ) (c0 : ℤ)) := by
    rw [hBc']
    exact GridWF_setCellN g hWF r c0 true hr
  have hfcc : filledCountSpec (place_piece g [((0 : ℤ), (0 : ℤ))] (r : ℤ) (c0 : ℤ))
      = filledCountSpec g + 1 := by
    rw [hBc']
    exact filledCountSpec_setCellN_true g hWF r c0 hr hc0 hempty
  have hmono_c : ∀ p, cellB g p ≤ cellB (place_piece g [((0 : ℤ), (0 : ℤ))] (r : ℤ) (c0 : ℤ)) p := by
    intro p
    rw [hBc']
    exact cellB_le_setCellN_true g hWF r c0 hr hc0 p
  have hfull : ∀ c, c < GRID_WIDTH →
      getCellN (place_piece g [((0 : ℤ), (0 : ℤ))] (r : ℤ) (c0 : ℤ)) r c = true := by
    intro c hc
    rw [hBc', getCellN_setCellN g hWF r c0 hr hc0 true r c]
    by_cases hcc : c = c0
    · rw [if_pos ⟨rfl, hcc⟩]
    · rw [if_neg (fun hco => hcc hco.2)]
      exact hrow c hc hcc
  have hrowmem : r ∈ rows_to_clear (place_piece g [((0 : ℤ), (0 : ℤ))] (r : ℤ) (c0 : ℤ)) :=
    mem_rows_to_clear _ hWFc r hr hfull
  have hk1 : 1 ≤ (find_and_clear_lines (place_piece g [((0 : ℤ), (0 : ℤ))] (r : ℤ) (c0 : ℤ))).1 := by
    rw [find_and_clear_count]
    have hpos : 0 < (rows_to_clear (place_piece g [((0 : ℤ), (0 : ℤ))] (r : ℤ) (c0 : ℤ))).length :=
      List.length_pos.mpr (fun hnil => by
        rw [hnil] at hrowmem
        exact List.not_mem_nil r hrowmem)
    omega
  have hR := clear_removed_le (place_piece g [((0 : ℤ), (0 : ℤ))] (r : ℤ) (c0 : ℤ)) hWFc
  have hRnn : 0 ≤ filledCountSpec (place_piece g [((0 : ℤ), (0 : ℤ))] (r : ℤ) (c0 : ℤ))
      - filledCountSpec (find_and_clear_lines (place_piece g [((0 : ℤ), (0 : ℤ))] (r : ℤ) (c0 : ℤ))).2 :=
    sub_nonneg.mpr (filledCountSpec_mono _ _ (cellB_clear_le _ hWFc))
  have hcsG1 := clusterScoreSpec_diff_le
    (place_piece g [((0 : ℤ), (0 : ℤ))] (r : ℤ) (c0 : ℤ))
    (find_and_clear_lines (place_piece g [((0 : ℤ), (0 : ℤ))] (r : ℤ) (c0 : ℤ))).2
    (cellB_clear_le _ hWFc)
  have hcsc : clusterScoreSpec g
      ≤ clusterScoreSpec (place_piece g [((0 : ℤ), (0 : ℤ))] (r : ℤ) (c0 : ℤ)) :=
    clusterScoreSpec_mono g _ hmono_c
  have hevc := evaluate_board_ge
    (find_and_clear_lines (place_piece g [((0 : ℤ), (0 : ℤ))] (r : ℤ) (c0 : ℤ))).2
  have hkk : (1 : ℤ) ≤ ((find_and_clear_lines (place_piece g [((0 : ℤ), (0 : ℤ))] (r : ℤ) (c0 : ℤ))).1 : ℤ) := by
    exact_mod_cast hk1
  have hW : WEIGHT_LINES_CLEARED = 2000 := rfl
  have hmn : ((find_and_clear_lines (place_piece g [((0 : ℤ), (0 : ℤ))] rn cn)).1 : ℤ) ^ 2
      * WEIGHT_LINES_CLEARED = 0 := by
    rw [hk0]
    norm_num
  rw [hmn, hevn, zero_add, hW]
  nlinarith [hcsn, hfcc, hR, hRnn, hcsG1, hcsc, hevc, hkk,
    sq_nonneg (((find_and_clear_lines (place_piece g [((0 : ℤ), (0 : ℤ))] (r : ℤ) (c0 : ℤ))).1 : ℤ) - 1)]

/-- C2: on a grid whose row `r` is one empty cell `(r, c0)` short of
being full, with a single unplaced single-cell piece, the search selects
the placement that completes (and clears) that row whenever no
alternative placement of the piece also completes a row or column. -/
theorem claim_C2_line_clear_dominance (g : Grid) (pieces : List Piece) (i : ℕ) (r c0 : ℕ)
    (hWF : GridWF g) (hr : r < GRID_HEIGHT) (hc0 : c0 < GRID_WIDTH)
    (havail : unplaced_indices pieces = [i])
    (hshape : (pieces.getD i default).shape = [((0 : ℤ), (0 : ℤ))])
    (hempty : getCellN g r c0 = false)
    (hrow : ∀ c, c < GRID_WIDTH → c ≠ c0 → getCellN g r c = true)
    (hnoother : ∀ rc ∈ find_all_possible_placements g [((0 : ℤ), (0 : ℤ))],
      rc ≠ ((r : ℤ), (c0 : ℤ)) →
      (find_and_clear_lines (place_piece g [((0 : ℤ), (0 : ℤ))] rc.1 rc.2)).1 = 0) :
    find_best_move_sequence g pieces = some [(i, (r : ℤ), (c0 : ℤ))] := by
  have hr' : r < 8 := hr
  have hc0' : c0 < 8 := hc0
  have hx : ((r : ℤ), (c0 : ℤ)) ∈ find_all_possible_placements g [((0 : ℤ), (0 : ℤ))] := by
    rw [mem_placements]
    refine ⟨?_, ?_, ?_⟩
    · rw [mem_pyRange]
      show 0 ≤ (r : ℤ) ∧ (r : ℤ) < (8 : ℤ) - (0 + 1) + 1
      constructor
      · positivity
      · omega
    · rw [mem_pyRange]
      show 0 ≤ (c0 : ℤ) ∧ (c0 : ℤ) < (8 : ℤ) - (0 + 1) + 1
      constructor
      · positivity
      · omega
    · show is_valid_placement g [((0 : ℤ), (0 : ℤ))] (r : ℤ) (c0 : ℤ) = true
      rw [valid_single_iff]
      refine ⟨by positivity, by omega, by positivity, by omega, ?_⟩
      rw [Int.toNat_natCast, Int.toNat_natCast]
      exact hempty
  have hbot : (⊥ : WithBot ℤ) < recBranchScore g pieces i [] ((r : ℤ), (c0 : ℤ)) := by
    rw [recBranchScore_nil]
    exact WithBot.bot_lt_coe _
  have hrec : find_best_outcome_recursive g pieces [i]
      = (recBranchScore g pieces i [] ((r : ℤ), (c0 : ℤ)),
        recBranchSeq g pieces i [] ((r : ℤ), (c0 : ℤ))) := by
    rw [rec_cons_eq, hshape]
    refine foldl_unique_max (recBranchScore g pieces i []) (recBranchSeq g pieces i [])
      (find_all_possible_placements g [((0 : ℤ), (0 : ℤ))]) ((r : ℤ), (c0 : ℤ))
      ((⊥ : WithBot ℤ), []) hx (placements_nodup g _) hbot ?_
    intro y hy hyne
    obtain ⟨yn, yc⟩ := y
    have hv : is_valid_placement g [((0 : ℤ), (0 : ℤ))] yn yc = true :=
      mem_placements_valid g [((0 : ℤ), (0 : ℤ))] (yn, yc) hy
    have hk0 : (find_and_clear_lines (place_piece g [((0 : ℤ), (0 : ℤ))] yn yc)).1 = 0 :=
      hnoother (yn, yc) hy hyne
    exact c2_branch_lt g pieces i hWF r c0 hr hc0 hshape hempty hrow yn yc hv hk0
  rw [seq_pure_eq, havail, show permsLex [i] = [[i]] from rfl, List.foldl_cons, List.foldl_nil]
  simp only [seqPureStep]
  rw [hrec, if_pos (by
    show (⊥ : WithBot ℤ) < recBranchScore g pieces i [] ((r : ℤ), (c0 : ℤ))
    exact hbot), recBranchSeq_nil]

theorem claim_C2_witness :
    GridWF c2grid ∧
    unplaced_indices [(⟨[(0, 0)], false⟩ : Piece)] = [0] ∧
    getCellN c2grid 0 7 = false ∧
    (∀ c, c < GRID_WIDTH → c ≠ 7 → getCellN c2grid 0 c = true) ∧
    (∀ rc ∈ find_all_possible_placements c2grid [((0 : ℤ), (0 : ℤ))],
      rc ≠ ((0 : ℤ), (7 : ℤ)) →
      (find_and_clear_lines (place_piece c2grid [((0 : ℤ), (0 : ℤ))] rc.1 rc.2)).1 = 0) ∧
    find_best_move_sequence c2grid [⟨[(0, 0)], false⟩] = some [(0, (0 : ℤ), (7 : ℤ))] :=
  ⟨by decide, by decide, by decide, by decide, by decide,
    claim_C2_line_clear_dominance c2grid [⟨[(0, 0)], false⟩] 0 0 7
      (by decide) (by decide) (by decide) (by decide) rfl (by decide) (by decide) (by decide)⟩
